import Mathlib

/-!
# Verification of the next-typesafe-url route/value codec core

This file embeds the core of the next-typesafe-url library (the functions
of its utils module and the public path builder) in Lean and proves the
specification's claims about them.

JavaScript strings are modelled as Lean strings (lists of Unicode scalar
values).  The ECMAScript platform functions the source calls —
encodeURIComponent, decodeURIComponent, JSON.stringify, JSON.parse and
Number.prototype.toString — are modelled below, faithfully to the
ECMAScript algorithms on this domain, with JavaScript numbers modelled as
exact decimal values m / 10 ^ e (an integer mantissa and a decimal
exponent); IEEE-754 rounding of extreme values is outside the model.
-/

/-! ## Hex digits -/

/-- The upper-case hexadecimal digit for a value below 16. -/
def hexDigitChar (n : Nat) : Char :=
  if n < 10 then Char.ofNat (48 + n) else Char.ofNat (55 + n)

/-- The lower-case hexadecimal digit for a value below 16, as produced by
JSON.stringify's escape sequences. -/
def hexDigitCharLower (n : Nat) : Char :=
  if n < 10 then Char.ofNat (48 + n) else Char.ofNat (87 + n)

/-- The value of a hexadecimal digit, either case, as read by
decodeURIComponent and by JSON.parse's escape sequences. -/
def hexVal (c : Char) : Option Nat :=
  if '0' ≤ c ∧ c ≤ '9' then some (c.toNat - 48)
  else if 'A' ≤ c ∧ c ≤ 'F' then some (c.toNat - 55)
  else if 'a' ≤ c ∧ c ≤ 'f' then some (c.toNat - 87)
  else none

/-! ## Percent encoding (encodeURIComponent / decodeURIComponent) -/

/-- The UTF-8 bytes of a Unicode scalar value. -/
def utf8Bytes (u : Nat) : List Nat :=
  if u < 0x80 then [u]
  else if u < 0x800 then [0xC0 + u / 64, 0x80 + u % 64]
  else if u < 0x10000 then
    [0xE0 + u / 4096, 0x80 + u / 64 % 64, 0x80 + u % 64]
  else
    [0xF0 + u / 0x40000, 0x80 + u / 4096 % 64, 0x80 + u / 64 % 64,
      0x80 + u % 64]

/-- A percent escape of one byte, with upper-case hex digits as
encodeURIComponent produces. -/
def escByte (b : Nat) : List Char :=
  ['%', hexDigitChar (b / 16), hexDigitChar (b % 16)]

/-- The characters encodeURIComponent leaves unescaped
(ECMA-262 uriUnescaped). -/
def unreservedChar (c : Char) : Bool :=
  ('A' ≤ c && c ≤ 'Z') || ('a' ≤ c && c ≤ 'z') || ('0' ≤ c && c ≤ '9') ||
  c = '-' || c = '_' || c = '.' || c = '!' || c = '~' || c = '*' ||
  c = '\'' || c = '(' || c = ')'

/-- The encoding of a single character: unescaped if unreserved, otherwise
the percent escapes of its UTF-8 bytes. -/
def encChar (c : Char) : List Char :=
  if unreservedChar c then [c] else ((utf8Bytes c.toNat).map escByte).flatten

/-- encodeURIComponent over a character list. -/
def encodeURIComponentChars : List Char → List Char
  | [] => []
  | c :: cs => encChar c ++ encodeURIComponentChars cs

/-- Model of ECMAScript encodeURIComponent. -/
def encodeURIComponent (s : String) : String :=
  String.mk (encodeURIComponentChars s.data)

/-- Does a byte lie in the UTF-8 continuation range 0x80–0xBF? -/
def contByte (b : Nat) : Bool := 0x80 ≤ b && b < 0xC0

/-- Two hex digit characters read as one byte. -/
def hex2 (h l : Char) : Option Nat :=
  match hexVal h, hexVal l with
  | some hi, some lo => some (16 * hi + lo)
  | _, _ => none

/-- Decode one percent escape after its leading percent sign: the UTF-8
sequence of one to four percent-escaped bytes, yielding the decoded
scalar value and the remaining text; none models a URIError (malformed
escape, stray continuation byte, overlong form, surrogate or
out-of-range value). -/
def decodeEscape (cs : List Char) : Option (Char × List Char) :=
  match cs with
  | h1 :: l1 :: rest1 =>
    match hex2 h1 l1 with
    | none => none
    | some b =>
      if b < 0x80 then some (Char.ofNat b, rest1)
      else if b < 0xC2 then none
      else if b < 0xE0 then
        match rest1 with
        | '%' :: h2 :: l2 :: rest2 =>
          match hex2 h2 l2 with
          | some b2 =>
            if contByte b2 then
              some (Char.ofNat ((b - 0xC0) * 64 + (b2 - 0x80)), rest2)
            else none
          | none => none
        | _ => none
      else if b < 0xF0 then
        match rest1 with
        | '%' :: h2 :: l2 :: '%' :: h3 :: l3 :: rest3 =>
          match hex2 h2 l2, hex2 h3 l3 with
          | some b2, some b3 =>
            if contByte b2 && contByte b3 then
              let u := (b - 0xE0) * 4096 + (b2 - 0x80) * 64 + (b3 - 0x80)
              if 0x800 ≤ u ∧ ¬ (0xD800 ≤ u ∧ u < 0xE000) then
                some (Char.ofNat u, rest3)
              else none
            else none
          | _, _ => none
        | _ => none
      else if b < 0xF8 then
        match rest1 with
        | '%' :: h2 :: l2 :: '%' :: h3 :: l3 :: '%' :: h4 :: l4 :: rest4 =>
          match hex2 h2 l2, hex2 h3 l3, hex2 h4 l4 with
          | some b2, some b3, some b4 =>
            if contByte b2 && contByte b3 && contByte b4 then
              let u := (b - 0xF0) * 0x40000 + (b2 - 0x80) * 4096 +
                (b3 - 0x80) * 64 + (b4 - 0x80)
              if 0x10000 ≤ u ∧ u < 0x110000 then
                some (Char.ofNat u, rest4)
              else none
            else none
          | _, _, _ => none
        | _ => none
      else none
  | _ => none

/-- decodeURIComponent over a character list, fueled: every step consumes
at least one character and spends one unit of fuel, so fuel equal to the
input length never runs out.  none models a thrown URIError. -/
def decodePercentF : Nat → List Char → Option (List Char)
  | _, [] => some []
  | 0, _ :: _ => none
  | fuel + 1, c :: rest =>
    if c = '%' then
      match decodeEscape rest with
      | none => none
      | some (d, rest2) => (decodePercentF fuel rest2).map (fun t => d :: t)
    else
      (decodePercentF fuel rest).map (fun t => c :: t)

/-- decodeURIComponent over a character list. -/
def decodePercent (cs : List Char) : Option (List Char) :=
  decodePercentF cs.length cs

/-- Model of ECMAScript decodeURIComponent; none models a thrown
URIError. -/
def decodeURIComponent (s : String) : Option String :=
  (decodePercent s.data).map String.mk

/-! ## JavaScript values

A JavaScript value as the library manipulates it: the JSON-compatible
values (strings, numbers, booleans, null, arrays, plain objects), the
undefined value, and a stand-in for every other, unencodable value
(functions, symbols, bigints, …).  Numbers are exact decimals
m / 10 ^ e. -/

inductive JSV where
  | str (s : String)
  | num (m : Int) (e : Nat)
  | bool (b : Bool)
  | null
  | arr (elems : List JSV)
  | obj (fields : List (String × JSV))
  | undefined
  | other

/-! ## Decimal number printing (Number.prototype.toString / JSON number
serialization) -/

/-- The decimal digit character for a value below 10. -/
def digitChar (n : Nat) : Char := Char.ofNat (48 + n)

/-- The decimal digits of a positive number, least significant first; the
first argument is fuel that any value at least the number itself makes
sufficient. -/
def natDigitsRev : Nat → Nat → List Char
  | 0, _ => []
  | fuel + 1, n =>
    if n = 0 then [] else digitChar (n % 10) :: natDigitsRev fuel (n / 10)

/-- The decimal digits of a number, most significant first, without
leading zeros ("0" for zero). -/
def natToChars (n : Nat) : List Char :=
  if n = 0 then ['0'] else (natDigitsRev n n).reverse

/-- The decimal text of the nonnegative number n / 10 ^ e: the plain
digits when e = 0, otherwise digits with a decimal point before the last
e digits, zero-padded so an integer part exists. -/
def decChars (n : Nat) (e : Nat) : List Char :=
  let digs := natToChars n
  if e = 0 then digs
  else
    let padded := List.replicate (e + 1 - digs.length) '0' ++ digs
    padded.take (padded.length - e) ++ '.' :: padded.drop (padded.length - e)

/-- The decimal text of the number m / 10 ^ e, as JavaScript prints such
numbers. -/
def numToChars (m : Int) (e : Nat) : List Char :=
  (if m < 0 then ['-'] else []) ++ decChars m.natAbs e

/-- Model of Number.prototype.toString on the decimal m / 10 ^ e. -/
def numToString (m : Int) (e : Nat) : String := String.mk (numToChars m e)

/-- Strip factors of ten out of the exponent, yielding the canonical
decimal pair for a value, as JavaScript's number-to-double reading
does observationally. -/
def canonNum (m : Int) : Nat → Int × Nat
  | 0 => (m, 0)
  | e + 1 =>
    if m = 0 then (0, 0)
    else if m % 10 = 0 then canonNum (m / 10) e
    else (m, e + 1)

/-! ## JSON serialization (JSON.stringify) -/

/-- The serialization of one character inside a JSON string literal
(ECMA-262 QuoteJSONString): quote, backslash and controls escaped,
everything else literal. -/
def quoteChar (c : Char) : List Char :=
  if c = '"' then ['\\', '"']
  else if c = '\\' then ['\\', '\\']
  else if c = Char.ofNat 8 then ['\\', 'b']
  else if c = Char.ofNat 12 then ['\\', 'f']
  else if c = Char.ofNat 10 then ['\\', 'n']
  else if c = Char.ofNat 13 then ['\\', 'r']
  else if c = Char.ofNat 9 then ['\\', 't']
  else if c.toNat < 32 then
    ['\\', 'u', '0', '0', hexDigitCharLower (c.toNat / 16),
      hexDigitCharLower (c.toNat % 16)]
  else [c]

/-- quoteChar mapped over a character list. -/
def quoteChars : List Char → List Char
  | [] => []
  | c :: cs => quoteChar c ++ quoteChars cs

/-- A JSON string literal: the quoted, escaped text of a string. -/
def quoteString (s : String) : List Char :=
  '"' :: quoteChars s.data ++ ['"']

mutual

/-- Model of JSON.stringify (SerializeJSONProperty): none models the
undefined result on undefined and unserializable values. -/
def serVal : JSV → Option (List Char)
  | .str s => some (quoteString s)
  | .num m e => some (numToChars m e)
  | .bool b => some (if b then "true".data else "false".data)
  | .null => some "null".data
  | .arr xs => some ('[' :: serElems xs ++ [']'])
  | .obj fs => some ('{' :: serFields fs ++ ['}'])
  | .undefined => none
  | .other => none

/-- Array elements in JSON.stringify: every element serialized, an
unserializable element becoming null, joined by commas. -/
def serElems : List JSV → List Char
  | [] => []
  | x :: xs =>
    (serVal x).getD "null".data ++
      (match xs with
        | [] => []
        | _ :: _ => ',' :: serElems xs)

/-- Object fields in JSON.stringify: fields with unserializable values
dropped, the rest as quoted key, colon, value, joined by commas. -/
def serFields : List (String × JSV) → List Char
  | [] => []
  | (k, v) :: fs =>
    match serVal v with
    | some sv =>
      let rest := serFields fs
      quoteString k ++ ':' :: sv ++
        (match rest with
          | [] => []
          | _ :: _ => ',' :: rest)
    | none => serFields fs

end

/-! ## Canonical values

The JSON-compatible values on which the observational round trip is
stated: no undefined and no unencodable value anywhere, every number a
canonical decimal (no trailing fractional zeros, zero only as 0 / 10^0),
and object keys distinct as JavaScript objects force. -/

mutual

/-- Is a value canonical JSON? -/
def canonV : JSV → Bool
  | .str _ => true
  | .num m e => e == 0 || m % 10 != 0
  | .bool _ => true
  | .null => true
  | .arr xs => canonL xs
  | .obj fs => canonF fs
  | .undefined => false
  | .other => false

/-- Are all elements canonical? -/
def canonL : List JSV → Bool
  | [] => true
  | x :: xs => canonV x && canonL xs

/-- Are all field values canonical and the keys distinct? -/
def canonF : List (String × JSV) → Bool
  | [] => true
  | (k, v) :: fs => fs.all (fun p => p.1 != k) && canonV v && canonF fs

end

/-! ## JSON parsing (JSON.parse) -/

/-- JSON whitespace. -/
def jsWs (c : Char) : Bool := c = ' ' || c = '\t' || c = '\n' || c = '\r'

/-- Drop leading JSON whitespace. -/
def skipWs : List Char → List Char
  | [] => []
  | c :: cs => if jsWs c then skipWs cs else c :: cs

/-- Is a character a decimal digit? -/
def isDigitChar (c : Char) : Bool := 48 ≤ c.toNat && c.toNat ≤ 57

/-- The value of a decimal digit character. -/
def digitVal (c : Char) : Nat := c.toNat - 48

/-- Split off the maximal run of leading decimal digits. -/
def takeDigits : List Char → List Char × List Char
  | [] => ([], [])
  | c :: cs =>
    if isDigitChar c then
      let p := takeDigits cs
      (c :: p.1, p.2)
    else ([], c :: cs)

/-- The number a list of decimal digit characters denotes. -/
def digitsVal (ds : List Char) : Nat :=
  ds.foldl (fun a c => 10 * a + digitVal c) 0

/-- The translation of a single-character JSON string escape. -/
def escChar (c : Char) : Option Char :=
  if c = '"' then some '"'
  else if c = '\\' then some '\\'
  else if c = '/' then some '/'
  else if c = 'b' then some (Char.ofNat 8)
  else if c = 'f' then some (Char.ofNat 12)
  else if c = 'n' then some (Char.ofNat 10)
  else if c = 'r' then some (Char.ofNat 13)
  else if c = 't' then some (Char.ofNat 9)
  else none

/-- Parse the body of a JSON string literal after its opening quote,
returning the content and the text after the closing quote.  Unescaped
controls are rejected; a \u escape denoting a surrogate code unit is
outside the model (Lean strings hold scalar values only). -/
def parseStringBody : List Char → Option (List Char × List Char)
  | [] => none
  | c :: rest =>
    if c = '"' then some ([], rest)
    else if c = '\\' then
      match rest with
      | [] => none
      | e :: r2 =>
        if e = 'u' then
          match r2 with
          | a :: b :: c2 :: d :: r3 =>
            match hexVal a, hexVal b, hexVal c2, hexVal d with
            | some x1, some x2, some x3, some x4 =>
              let u := 4096 * x1 + 256 * x2 + 16 * x3 + x4
              if u < 0xD800 ∨ 0xDFFF < u then
                (parseStringBody r3).map (fun p => (Char.ofNat u :: p.1, p.2))
              else none
            | _, _, _, _ => none
          | _ => none
        else
          match escChar e with
          | some ec => (parseStringBody r2).map (fun p => (ec :: p.1, p.2))
          | none => none
    else if c.toNat < 32 then none
    else (parseStringBody rest).map (fun p => (c :: p.1, p.2))

/-- Parse the integer-part digits of a JSON number: a lone 0, or a
nonzero digit followed by more digits. -/
def parseIntDigits (cs : List Char) : Option (List Char × List Char) :=
  match cs with
  | [] => none
  | c :: rest =>
    if c = '0' then some (['0'], rest)
    else
      match takeDigits (c :: rest) with
      | ([], _) => none
      | (ds, r) => some (ds, r)

/-- Parse the optional fraction of a JSON number: nothing, or a decimal
point with at least one digit. -/
def parseFrac (cs : List Char) : Option (List Char × List Char) :=
  match cs with
  | [] => some ([], [])
  | c :: rest =>
    if c = '.' then
      match takeDigits rest with
      | ([], _) => none
      | (ds, rr) => some (ds, rr)
    else some ([], c :: rest)

/-- Parse a JSON exponent after the e/E marker: optional sign and at
least one digit. -/
def parseExpPart (cs : List Char) : Option (Int × List Char) :=
  let p : Bool × List Char :=
    match cs with
    | '+' :: r => (false, r)
    | '-' :: r => (true, r)
    | _ => (false, cs)
  match takeDigits p.2 with
  | ([], _) => none
  | (ds, r) =>
    some ((if p.1 then -(digitsVal ds : Int) else (digitsVal ds : Int)), r)

/-- Parse the optional exponent of a JSON number. -/
def parseExpOpt (cs : List Char) : Option (Int × List Char) :=
  match cs with
  | [] => some (0, [])
  | c :: rest =>
    if c = 'e' ∨ c = 'E' then parseExpPart rest
    else some (0, c :: rest)

/-- Apply a decimal exponent to a mantissa/fraction-length pair and
canonicalize. -/
def applyExp (m : Int) (e : Nat) (k : Int) : Int × Nat :=
  if 0 ≤ k then canonNum (m * 10 ^ k.toNat) e else canonNum m (e + (-k).toNat)

/-- Parse an unsigned JSON number: integer part, optional fraction,
optional exponent, yielding the canonical decimal pair. -/
def parseUnsigned (cs : List Char) : Option ((Int × Nat) × List Char) :=
  match parseIntDigits cs with
  | none => none
  | some (ids, r1) =>
    match parseFrac r1 with
    | none => none
    | some (fds, r2) =>
      match parseExpOpt r2 with
      | none => none
      | some (k, r3) =>
        some (applyExp (digitsVal (ids ++ fds) : Int) fds.length k, r3)

/-- Parse a JSON number with optional leading minus. -/
def parseNumber (cs : List Char) : Option ((Int × Nat) × List Char) :=
  match cs with
  | [] => none
  | c :: rest =>
    if c = '-' then
      (parseUnsigned rest).map (fun p => ((-p.1.1, p.1.2), p.2))
    else parseUnsigned (c :: rest)

mutual

/-- Parse one JSON value (leading whitespace already skipped).  The fuel
argument bounds the recursion depth; parseJson supplies enough for any
input. -/
def parseVal : Nat → List Char → Option (JSV × List Char)
  | 0, _ => none
  | _ + 1, [] => none
  | fuel + 1, c :: cs =>
    if c = 't' then
      match cs with
      | 'r' :: 'u' :: 'e' :: r => some (.bool true, r)
      | _ => none
    else if c = 'f' then
      match cs with
      | 'a' :: 'l' :: 's' :: 'e' :: r => some (.bool false, r)
      | _ => none
    else if c = 'n' then
      match cs with
      | 'u' :: 'l' :: 'l' :: r => some (.null, r)
      | _ => none
    else if c = '"' then
      (parseStringBody cs).map (fun p => (.str (String.mk p.1), p.2))
    else if c = '[' then
      match skipWs cs with
      | ']' :: r2 => some (.arr [], r2)
      | r1 =>
        (parseElems fuel r1).map (fun p => (.arr p.1, p.2))
    else if c = '{' then
      match skipWs cs with
      | '}' :: r2 => some (.obj [], r2)
      | r1 =>
        (parseMembers fuel r1).map (fun p => (.obj p.1, p.2))
    else
      (parseNumber (c :: cs)).map (fun p => (.num p.1.1 p.1.2, p.2))

/-- Parse the elements of a nonempty JSON array up to and including the
closing bracket. -/
def parseElems : Nat → List Char → Option (List JSV × List Char)
  | 0, _ => none
  | fuel + 1, cs =>
    match parseVal fuel cs with
    | none => none
    | some (v, r1) =>
      match skipWs r1 with
      | ',' :: r2 =>
        match parseElems fuel (skipWs r2) with
        | some (vs, r3) => some (v :: vs, r3)
        | none => none
      | ']' :: r2 => some ([v], r2)
      | _ => none

/-- Parse the members of a nonempty JSON object up to and including the
closing brace. -/
def parseMembers : Nat → List Char → Option (List (String × JSV) × List Char)
  | 0, _ => none
  | fuel + 1, cs =>
    match cs with
    | '"' :: r =>
      match parseStringBody r with
      | none => none
      | some (kcs, r1) =>
        match skipWs r1 with
        | ':' :: r2 =>
          match parseVal fuel (skipWs r2) with
          | none => none
          | some (v, r3) =>
            match skipWs r3 with
            | ',' :: r4 =>
              match parseMembers fuel (skipWs r4) with
              | some (fs, r5) => some ((String.mk kcs, v) :: fs, r5)
              | none => none
            | '}' :: r4 => some ([(String.mk kcs, v)], r4)
            | _ => none
        | _ => none
    | _ => none

end

/-- Model of ECMAScript JSON.parse; none models a thrown SyntaxError.
The fuel handed to parseVal exceeds the recursion depth any input of
this length can force. -/
def parseJson (s : String) : Option JSV :=
  match parseVal (s.data.length + 1) (skipWs s.data) with
  | some (v, r) => if skipWs r = [] then some v else none
  | none => none

/-! ## JavaScript string operations used by the source -/

/-- JavaScript String.prototype.startsWith. -/
def strStartsWith (s pre : String) : Bool := pre.data.isPrefixOf s.data

/-- JavaScript String.prototype.endsWith. -/
def strEndsWith (s suf : String) : Bool :=
  suf.data.reverse.isPrefixOf s.data.reverse

/-- Does the three-dot sequence occur in a character list?  Models
segment.includes("...") from the source. -/
def hasTripleDot : List Char → Bool
  | '.' :: '.' :: '.' :: _ => true
  | _ :: rest => hasTripleDot rest
  | [] => false

/-- JavaScript String.prototype.includes("..."). -/
def containsDots (s : String) : Bool := hasTripleDot s.data

/-- JavaScript String.prototype.slice with a nonnegative start and a
negative end: s.slice(a, -b). -/
def jsSlice (s : String) (a b : Nat) : String :=
  let l := s.data.drop a
  String.mk (l.take (l.length - b))

/-- JavaScript String.prototype.split with a one-character separator. -/
def splitChar (sep : Char) : List Char → List (List Char)
  | [] => [[]]
  | c :: rest =>
    match splitChar sep rest with
    | [] => [[]]
    | g :: gs => if c = sep then [] :: g :: gs else (c :: g) :: gs

/-- route.split("/") from the source. -/
def splitOnSlash (s : String) : List String :=
  (splitChar '/' s.data).map String.mk

/-- Join a list of strings with a separator: parts.join(sep). -/
def joinSep (sep : String) : List String → String
  | [] => ""
  | [s] => s
  | s :: rest => s ++ sep ++ joinSep sep rest

/-! ## JavaScript records (plain objects with string keys) -/

/-- Property lookup in a record held as an insertion-ordered entry
list. -/
def recLookup {α : Type} : List (String × α) → String → Option α
  | [], _ => none
  | (k', v) :: r, k => if k' = k then some v else recLookup r k

/-- Property assignment: update in place if the key exists, else append,
as JavaScript objects behave. -/
def recSet {α : Type} : List (String × α) → String → α → List (String × α)
  | [], k, v => [(k, v)]
  | (k', v') :: r, k, v =>
    if k' = k then (k', v) :: r else (k', v') :: recSet r k v

/-- The object spread { ...a, ...b }. -/
def recSpread {α : Type} (a b : List (String × α)) : List (String × α) :=
  b.foldl (fun acc p => recSet acc p.1 p.2) a

/-- Property access that yields undefined for an absent key, as
routeParams[name] and query[name] do in the source. -/
def jsGet (r : List (String × JSV)) (k : String) : JSV :=
  (recLookup r k).getD .undefined

/-! ## The library's error taxonomy (§7 of the spec) -/

inductive UrlError where
  | invalidValue
  | missingRouteParam (name : String)
  deriving DecidableEq

/-! ## The source functions (src/unnamed/part_001) -/

/-- encodeValue from the source: a non-empty string, a number or a
boolean is percent-encoded from its text; an array, object or null is
percent-encoded from its JSON serialization; everything else — the empty
string, undefined and unencodable values — throws. -/
def encodeValue (value : JSV) : Except UrlError String :=
  match value with
  | .str s => if s = "" then .error .invalidValue else .ok (encodeURIComponent s)
  | .num m e => .ok (encodeURIComponent (numToString m e))
  | .bool b => .ok (encodeURIComponent (if b then "true" else "false"))
  | .arr xs => .ok (encodeURIComponent (String.mk ((serVal (.arr xs)).getD [])))
  | .obj fs => .ok (encodeURIComponent (String.mk ((serVal (.obj fs)).getD [])))
  | .null => .ok (encodeURIComponent "null")
  | .undefined => .error .invalidValue
  | .other => .error .invalidValue

/-- The loop of generateParamStringFromSearchParamObj: one pushed string
per entry — the bare key when the value is undefined, key=encodeValue
otherwise. -/
def genParams : List (String × JSV) → Except UrlError (List String)
  | [] => .ok []
  | (key, value) :: rest =>
    match value with
    | .undefined =>
      match genParams rest with
      | .ok ps => .ok (key :: ps)
      | .error e => .error e
    | v =>
      match encodeValue v with
      | .error e => .error e
      | .ok enc =>
        match genParams rest with
        | .ok ps => .ok ((key ++ "=" ++ enc) :: ps)
        | .error e => .error e

/-- generateParamStringFromSearchParamObj from the source. -/
def generateParamStringFromSearchParamObj (obj : List (String × JSV)) :
    Except UrlError String :=
  match genParams obj with
  | .error e => .error e
  | .ok params =>
    let finalString := "?" ++ joinSep "&" params
    .ok (if finalString = "?" then "" else finalString)

/-- safeJSONParse from the source: undefined passes through; otherwise
percent-decode and JSON-parse inside a try, returning the original
argument when either throws. -/
def safeJSONParse (value : Option String) : JSV :=
  match value with
  | none => .undefined
  | some v =>
    match decodeURIComponent v with
    | none => .str v
    | some decoded =>
      match parseJson decoded with
      | none => .str v
      | some j => j

/-- A raw query value: a string or an array of strings (an absent key is
modelled by an absent record entry). -/
inductive StrOrList where
  | str (s : String)
  | list (xs : List String)

/-- parseOrMapParse from the source. -/
def parseOrMapParse (obj : Option StrOrList) : JSV :=
  match obj with
  | some (.list xs) => .arr (xs.map (fun s => safeJSONParse (some s)))
  | some (.str s) => safeJSONParse (some s)
  | none => safeJSONParse none

/-- The four segment kinds. -/
inductive SegType where
  | static
  | dynamic
  | catchAll
  | optionalCatchAll
  deriving DecidableEq

/-- A classified route segment. -/
structure Segment where
  type : SegType
  value : String
  deriving DecidableEq

/-- parseSegment from the source, with the source's test order: dynamic,
then optional catch-all, then catch-all, else static. -/
def parseSegment (segment : String) : Segment :=
  if strStartsWith segment "[" && strEndsWith segment "]" &&
      !containsDots segment then
    ⟨.dynamic, jsSlice segment 1 1⟩
  else if strStartsWith segment "[[" && strEndsWith segment "]]" &&
      containsDots segment then
    ⟨.optionalCatchAll, jsSlice segment 5 2⟩
  else if strStartsWith segment "[" && strEndsWith segment "]" &&
      containsDots segment then
    ⟨.catchAll, jsSlice segment 4 1⟩
  else
    ⟨.static, segment⟩

/-- The classifier exactly as §4.1 of the spec words it, with the spec's
precedence order: optional catch-all, catch-all, dynamic, static. -/
def specClassify (segment : String) : Segment :=
  if strStartsWith segment "[[" && strEndsWith segment "]]" &&
      containsDots segment then
    ⟨.optionalCatchAll, jsSlice segment 5 2⟩
  else if strStartsWith segment "[" && strEndsWith segment "]" &&
      containsDots segment then
    ⟨.catchAll, jsSlice segment 4 1⟩
  else if strStartsWith segment "[" && strEndsWith segment "]" &&
      !containsDots segment then
    ⟨.dynamic, jsSlice segment 1 1⟩
  else
    ⟨.static, segment⟩

/-- Sequential traversal of a list by a throwing function, as a
JavaScript array map evaluates: the first thrown error propagates. -/
def mapE {α β : Type} (f : α → Except UrlError β) : List α → Except UrlError (List β)
  | [] => .ok []
  | x :: xs =>
    match f x with
    | .error e => .error e
    | .ok y =>
      match mapE f xs with
      | .error e => .error e
      | .ok ys => .ok (y :: ys)

/-- The body of encodeAndFillRoute's loop for one classified segment:
the strings it pushes, or the error it throws. -/
def processSegment (routeParams : List (String × JSV)) (seg : Segment) :
    Except UrlError (List String) :=
  match seg.type with
  | .static => .ok [seg.value]
  | .dynamic =>
    match jsGet routeParams seg.value with
    | .undefined => .error (.missingRouteParam seg.value)
    | v =>
      match encodeValue v with
      | .ok enc => .ok [enc]
      | .error e => .error e
  | .catchAll =>
    match jsGet routeParams seg.value with
    | .arr xs => mapE encodeValue xs
    | .undefined => .error (.missingRouteParam seg.value)
    | v =>
      match encodeValue v with
      | .ok enc => .ok [enc]
      | .error e => .error e
  | .optionalCatchAll =>
    match jsGet routeParams seg.value with
    | .arr xs => mapE encodeValue xs
    | .undefined => .ok []
    | v =>
      match encodeValue v with
      | .ok enc => .ok [enc]
      | .error e => .error e

/-- encodeAndFillRoute from the source: split the route, classify every
segment, fill each from routeParams, and join the pushed parts with
slashes. -/
def encodeAndFillRoute (route : String) (routeParams : List (String × JSV)) :
    Except UrlError String :=
  match mapE (processSegment routeParams) ((splitOnSlash route).map parseSegment) with
  | .error e => .error e
  | .ok parts => .ok (joinSep "/" parts.flatten)

/-- The $path function from the source's index module, with its four
branches on which of searchParams / routeParams are supplied. -/
def dollarPath (route : String) (searchParams : Option (List (String × JSV)))
    (routeParams : Option (List (String × JSV))) : Except UrlError String :=
  match searchParams, routeParams with
  | some sp, some rp =>
    match generateParamStringFromSearchParamObj sp with
    | .error e => .error e
    | .ok searchString =>
      match encodeAndFillRoute route rp with
      | .error e => .error e
      | .ok routeString => .ok (routeString ++ searchString)
  | none, some rp => encodeAndFillRoute route rp
  | some sp, none =>
    match generateParamStringFromSearchParamObj sp with
    | .error e => .error e
    | .ok searchString => .ok (route ++ searchString)
  | none, none => .ok route

/-! ## getDynamicRouteParams (pages-router route params decoding) -/

/-- The dynamic (scalar) param names of a route pattern, as
getDynamicRouteParams extracts them. -/
def dynamicParamNames (path : String) : List String :=
  ((splitOnSlash path).filter (fun s =>
      strStartsWith s "[" && strEndsWith s "]" && !containsDots s)).map
    (fun s => jsSlice s 1 1)

/-- The optional-catch-all param names of a route pattern, as
getDynamicRouteParams extracts them. -/
def optionalCatchAllParamNames (path : String) : List String :=
  ((splitOnSlash path).filter (fun s =>
      strStartsWith s "[[" && strEndsWith s "]]" && containsDots s)).map
    (fun s => jsSlice s 5 2)

/-- The catch-all param names of a route pattern, as
getDynamicRouteParams extracts them; note its filter also keeps
optional catch-all segments, whose name then loses only four leading and
one trailing character. -/
def catchAllParamNames (path : String) : List String :=
  ((splitOnSlash path).filter (fun s =>
      strStartsWith s "[" && strEndsWith s "]" && containsDots s)).map
    (fun s => jsSlice s 4 1)

/-- The combined catch-all name list of getDynamicRouteParams. -/
def allCatchAllNames (path : String) : List String :=
  optionalCatchAllParamNames path ++ catchAllParamNames path

/-- The value getDynamicRouteParams stores for a catch-all name: the
parse result if it is an array, else that result in a one-element
array. -/
def catchAllValue (query : List (String × StrOrList)) (name : String) : JSV :=
  match parseOrMapParse (recLookup query name) with
  | .arr xs => .arr xs
  | r => .arr [r]

/-- getDynamicRouteParams from the source: parse catch-all and scalar
dynamic params out of the router query and merge them, catch-all entries
spread last. -/
def getDynamicRouteParams (path : String)
    (query : List (String × StrOrList)) : List (String × JSV) :=
  let parsedCatchAll := (allCatchAllNames path).foldl
    (fun acc name => recSet acc name (catchAllValue query name)) []
  let parsedNonCatchAll := (dynamicParamNames path).foldl
    (fun acc name => recSet acc name (parseOrMapParse (recLookup query name))) []
  recSpread parsedNonCatchAll parsedCatchAll

/-! ## Fuel measure for the JSON parser -/

mutual

/-- An upper bound on the parseVal fuel needed to parse the
serialization of a value. -/
def needV : JSV → Nat
  | .arr xs => 1 + needEs xs
  | .obj fs => 1 + needMs fs
  | _ => 1

/-- Fuel bound for parseElems on a serialized element list. -/
def needEs : List JSV → Nat
  | [] => 0
  | x :: xs => 1 + max (needV x) (needEs xs)

/-- Fuel bound for parseMembers on a serialized field list. -/
def needMs : List (String × JSV) → Nat
  | [] => 0
  | (_, v) :: fs => 1 + max (needV v) (needMs fs)

end

/-! # Theorems

General lemmas first, then one theorem per claim of the specification
audit, each with its witness where the statement carries hypotheses. -/

/-! ## Small string and list lemmas -/

theorem stringMk_data (s : String) : String.mk s.data = s := by
  cases s
  rfl

theorem stringMk_eq_empty_iff (l : List Char) : String.mk l = "" ↔ l = [] := by
  constructor
  · intro h
    have : (String.mk l).data = ("" : String).data := by rw [h]
    simpa using this
  · intro h
    rw [h]

theorem string_length_data (s : String) : s.length = s.data.length := rfl

theorem jsSlice_ne_empty (s : String) (a b : Nat) (h : a + b < s.length) :
    jsSlice s a b ≠ "" := by
  unfold jsSlice
  rw [Ne, stringMk_eq_empty_iff]
  intro hc
  have h2 : a + b < s.data.length := h
  have hlen := congrArg List.length hc
  simp only [List.length_take, List.length_drop, List.length_nil] at hlen
  omega

/-! ## Claim C2 — undefined search params and the query string -/

/-- Claim C2 (code bug): on pattern "/" with searchParams
containing foo bound to undefined and bar bound to true, the code emits
the bare key foo, producing "/?foo&bar=true", where the claim and the
library's README promise "/?bar=true" with the foo key omitted
entirely. -/
theorem c2_code_behavior :
    dollarPath "/" (some [("foo", JSV.undefined), ("bar", JSV.bool true)])
      none = .ok "/?foo&bar=true" ∧
    ("/?foo&bar=true" : String) ≠ "/?bar=true" := by
  constructor
  · rfl
  · decide

/-! ## Claim C9 — non-static segment names -/

/-- Claim C9 (counterexample): the segment "[]" classifies as dynamic
with an empty name, falsifying the invariant that every non-static
segment name is non-empty. -/
theorem c9_counterexample :
    parseSegment "[]" = ⟨.dynamic, ""⟩ := by rfl

/-- Claim C9 (amended): a non-static segment's name is non-empty
provided the segment is long enough to hold a name character between its
delimiters — length at least 3 for dynamic, 6 for catch-all, 8 for
optional catch-all; the degenerate brackets-only segments yield an empty
name. -/
theorem c9_amended (s : String) :
    ((parseSegment s).type = .dynamic → 3 ≤ s.length →
      (parseSegment s).value ≠ "") ∧
    ((parseSegment s).type = .catchAll → 6 ≤ s.length →
      (parseSegment s).value ≠ "") ∧
    ((parseSegment s).type = .optionalCatchAll → 8 ≤ s.length →
      (parseSegment s).value ≠ "") := by
  unfold parseSegment
  split
  · refine ⟨fun _ hl => ?_, fun h _ => by simp_all, fun h _ => by simp_all⟩
    exact jsSlice_ne_empty s 1 1 (by omega)
  · split
    · refine ⟨fun h _ => by simp_all, fun h _ => by simp_all, fun _ hl => ?_⟩
      exact jsSlice_ne_empty s 5 2 (by omega)
    · split
      · refine ⟨fun h _ => by simp_all, fun _ hl => ?_, fun h _ => by simp_all⟩
        exact jsSlice_ne_empty s 4 1 (by omega)
      · exact ⟨fun h _ => by simp_all, fun h _ => by simp_all,
          fun h _ => by simp_all⟩

/-- Witness for c9_amended at the segment "[id]". -/
theorem c9_amended_witness :
    (parseSegment "[id]").type = .dynamic ∧ 3 ≤ ("[id]" : String).length ∧
    (parseSegment "[id]").value ≠ "" := by
  refine ⟨by rfl, by decide, (c9_amended "[id]").1 (by rfl) (by decide)⟩

/-! ## Claim C7 — the segment classifier -/

/-- Claim C7: the source's classifier is total and agrees with the
spec's §4.1 rules in their stated precedence order on every string, and
gives the four documented example classifications. -/
theorem c7_classifier :
    (∀ s, parseSegment s = specClassify s) ∧
    parseSegment "foo" = ⟨.static, "foo"⟩ ∧
    parseSegment "[id]" = ⟨.dynamic, "id"⟩ ∧
    parseSegment "[...ids]" = ⟨.catchAll, "ids"⟩ ∧
    parseSegment "[[...ids]]" = ⟨.optionalCatchAll, "ids"⟩ := by
  refine ⟨fun s => ?_, by rfl, by rfl, by rfl, by rfl⟩
  unfold parseSegment specClassify
  by_cases hd : containsDots s <;>
    by_cases h1 : strStartsWith s "[" <;>
    by_cases h2 : strEndsWith s "]" <;>
    by_cases h3 : strStartsWith s "[[" <;>
    by_cases h4 : strEndsWith s "]]" <;>
    simp [hd, h1, h2, h3, h4]

/-! ## Claim C6 — when encoding fails -/

theorem encodeValue_error_invalid (v : JSV) (e : UrlError)
    (h : encodeValue v = .error e) : e = .invalidValue := by
  cases v with
  | str s =>
    by_cases hs : s = "" <;> simp [encodeValue, hs] at h
    first
    | exact h
    | exact h.symm
  | undefined =>
    simp [encodeValue] at h
    first
    | exact h
    | exact h.symm
  | other =>
    simp [encodeValue] at h
    first
    | exact h
    | exact h.symm
  | num m e2 => simp [encodeValue] at h
  | bool b => simp [encodeValue] at h
  | null => simp [encodeValue] at h
  | arr xs => simp [encodeValue] at h
  | obj fs => simp [encodeValue] at h

/-- Claim C6: encodeValue fails, always with InvalidValue, exactly on
the empty string, undefined, and unencodable values; every other
argument yields a percent-encoded token. -/
theorem c6_invalid_value (v : JSV) :
    (encodeValue v = .error .invalidValue ↔
      v = .str "" ∨ v = .undefined ∨ v = .other) ∧
    (∀ e, encodeValue v = .error e → e = .invalidValue) ∧
    (¬ (v = .str "" ∨ v = .undefined ∨ v = .other) →
      ∃ t, encodeValue v = .ok t) := by
  refine ⟨?_, fun e h => encodeValue_error_invalid v e h, ?_⟩
  · cases v with
    | str s => by_cases hs : s = "" <;> simp [encodeValue, hs]
    | num m e2 => simp [encodeValue]
    | bool b => simp [encodeValue]
    | null => simp [encodeValue]
    | arr xs => simp [encodeValue]
    | obj fs => simp [encodeValue]
    | undefined => simp [encodeValue]
    | other => simp [encodeValue]
  · intro hn
    cases v with
    | str s =>
      simp only [not_or] at hn
      have hs : s ≠ "" := by
        intro h
        exact hn.1 (by rw [h])
      simp [encodeValue, hs]
    | num m e2 => simp [encodeValue]
    | bool b => simp [encodeValue]
    | null => simp [encodeValue]
    | arr xs => simp [encodeValue]
    | obj fs => simp [encodeValue]
    | undefined => simp at hn
    | other => simp at hn

/-- Witness for c6_invalid_value at the boolean true, which is none of
the failing shapes and encodes successfully. -/
theorem c6_invalid_value_witness :
    ∃ t, encodeValue (JSV.bool true) = .ok t :=
  (c6_invalid_value (JSV.bool true)).2.2 (by simp)

/-! ## Claim C5 — missing route params in the path builder -/

theorem mapE_append_error {α β : Type} (f : α → Except UrlError β) :
    ∀ (pre : List α) (seg : α) (post : List α) (e : UrlError),
    (∀ x ∈ pre, ∃ out, f x = .ok out) → f seg = .error e →
    mapE f (pre ++ seg :: post) = .error e := by
  intro pre
  induction pre with
  | nil =>
    intro seg post e _ hseg
    simp [mapE, hseg]
  | cons x xs ih =>
    intro seg post e hok hseg
    obtain ⟨out, hx⟩ := hok x (by simp)
    have ht := ih seg post e (fun y hy => hok y (by simp [hy])) hseg
    simp [mapE, hx, ht]

/-- Claim C5: a dynamic or catch-all segment whose name is undefined in
routeParams makes the filler throw MissingRouteParam; an optional
catch-all segment with an undefined name emits nothing and raises no
error; and a whole route fails with MissingRouteParam as soon as such a
dynamic or catch-all segment follows only successfully filled
segments. -/
theorem c5_missing_route_param :
    (∀ params name, jsGet params name = .undefined →
      processSegment params ⟨.dynamic, name⟩ =
        .error (.missingRouteParam name)) ∧
    (∀ params name, jsGet params name = .undefined →
      processSegment params ⟨.catchAll, name⟩ =
        .error (.missingRouteParam name)) ∧
    (∀ params name, jsGet params name = .undefined →
      processSegment params ⟨.optionalCatchAll, name⟩ = .ok []) ∧
    (∀ route params pre seg post,
      (splitOnSlash route).map parseSegment = pre ++ seg :: post →
      (∀ x ∈ pre, ∃ out, processSegment params x = .ok out) →
      seg.type = .dynamic ∨ seg.type = .catchAll →
      jsGet params seg.value = .undefined →
      encodeAndFillRoute route params =
        .error (.missingRouteParam seg.value)) := by
  have hdyn : ∀ params name, jsGet params name = .undefined →
      processSegment params ⟨.dynamic, name⟩ =
        .error (.missingRouteParam name) := by
    intro params name h
    simp [processSegment, h]
  have hcatch : ∀ params name, jsGet params name = .undefined →
      processSegment params ⟨.catchAll, name⟩ =
        .error (.missingRouteParam name) := by
    intro params name h
    simp [processSegment, h]
  refine ⟨hdyn, hcatch, ?_, ?_⟩
  · intro params name h
    simp [processSegment, h]
  · intro route params pre seg post hsplit hok hty hundef
    have hseg : processSegment params seg = .error (.missingRouteParam seg.value) := by
      obtain ⟨ty, name⟩ := seg
      rcases hty with h | h <;> simp only at h <;> subst h
      · exact hdyn params name hundef
      · exact hcatch params name hundef
    unfold encodeAndFillRoute
    rw [hsplit, mapE_append_error (processSegment params) pre seg post _ hok hseg]

/-- Witness for c5_missing_route_param on the route "/p/[id]" with an
empty parameter record. -/
theorem c5_missing_route_param_witness :
    processSegment [] ⟨.dynamic, "id"⟩ = .error (.missingRouteParam "id") ∧
    processSegment [] ⟨.optionalCatchAll, "id"⟩ = .ok [] ∧
    encodeAndFillRoute "/p/[id]" [] = .error (.missingRouteParam "id") := by
  refine ⟨c5_missing_route_param.1 [] "id" (by rfl),
    c5_missing_route_param.2.2.1 [] "id" (by rfl),
    c5_missing_route_param.2.2.2 "/p/[id]" [] [⟨.static, ""⟩, ⟨.static, "p"⟩]
      ⟨.dynamic, "id"⟩ [] (by rfl) ?_ (Or.inl rfl) (by rfl)⟩
  intro x hx
  simp only [List.mem_cons, List.not_mem_nil, or_false] at hx
  rcases hx with h | h <;> subst h <;> exact ⟨_, rfl⟩

/-! ## Claim C10 — the path builder without routeParams -/

theorem genParams_error_invalid :
    ∀ (obj : List (String × JSV)) (e : UrlError),
    genParams obj = .error e → e = .invalidValue := by
  intro obj
  induction obj with
  | nil => intro e h; simp [genParams] at h
  | cons p rest ih =>
    intro e h
    obtain ⟨key, value⟩ := p
    cases value <;> simp only [genParams] at h <;>
      first
      | (cases hr : genParams rest <;> rw [hr] at h <;> simp_all <;>
          exact ih _ hr)
      | (cases henc : encodeValue _ <;> rw [henc] at h <;>
          first
          | (simp at h; subst h; exact encodeValue_error_invalid _ _ henc)
          | (cases hr : genParams rest <;> rw [hr] at h <;> simp_all <;>
              exact ih _ hr))

/-- Claim C10: with routeParams absent, the path builder returns the
route pattern verbatim — with the query string appended when
searchParams is supplied — without classifying, encoding or checking any
route segment; in particular no MissingRouteParam can arise, the only
possible failure being InvalidValue from search-param encoding. -/
theorem c10_no_route_params :
    (∀ route, dollarPath route none none = .ok route) ∧
    (∀ route sp, dollarPath route (some sp) none =
      (generateParamStringFromSearchParamObj sp).map
        (fun ss => route ++ ss)) ∧
    (∀ sp e, generateParamStringFromSearchParamObj sp = .error e →
      e = .invalidValue) := by
  refine ⟨fun route => rfl, fun route sp => ?_, fun sp e h => ?_⟩
  · cases hg : generateParamStringFromSearchParamObj sp <;>
      simp [dollarPath, hg, Except.map]
  · unfold generateParamStringFromSearchParamObj at h
    cases hg : genParams sp <;> rw [hg] at h <;> simp at h
    subst h
    exact genParams_error_invalid sp _ hg

/-- Witness for c10_no_route_params: the bracketed route returned
verbatim, with and without search params, and the error clause at a
search-param record whose encoding fails. -/
theorem c10_no_route_params_witness :
    dollarPath "/[id]/[...rest]" none none = .ok "/[id]/[...rest]" ∧
    dollarPath "/[id]" (some [("a", JSV.bool false)]) none =
      (generateParamStringFromSearchParamObj [("a", JSV.bool false)]).map
        (fun ss => "/[id]" ++ ss) ∧
    UrlError.invalidValue = UrlError.invalidValue :=
  ⟨c10_no_route_params.1 "/[id]/[...rest]",
    c10_no_route_params.2.1 "/[id]" [("a", JSV.bool false)],
    c10_no_route_params.2.2 [("a", JSV.other)] .invalidValue rfl⟩

/-! ## Claims C8 and C3 — the decoder never fails, and what it returns -/

/-- Claim C8: decoding never raises — undefined maps to undefined, and
every string token yields a value: the parsed JSON value when
percent-decoding and parsing both succeed, and the token itself as a
string (malformed percent escapes and malformed JSON included)
otherwise. -/
theorem c8_decode_total :
    safeJSONParse none = .undefined ∧
    (∀ t, (decodeURIComponent t).bind parseJson = none →
      safeJSONParse (some t) = .str t) ∧
    (∀ t v, (decodeURIComponent t).bind parseJson = some v →
      safeJSONParse (some t) = v) := by
  refine ⟨rfl, fun t h => ?_, fun t v h => ?_⟩
  · cases hd : decodeURIComponent t with
    | none => simp [safeJSONParse, hd]
    | some d =>
      rw [hd] at h
      simp only [Option.some_bind] at h
      simp [safeJSONParse, hd, h]
  · cases hd : decodeURIComponent t with
    | none => rw [hd] at h; simp at h
    | some d =>
      rw [hd] at h
      simp only [Option.some_bind] at h
      simp [safeJSONParse, hd, h]

/-- Witness for c8_decode_total at the token "%", whose percent-decoding
fails (a URIError in JavaScript), and which decodes to itself as a
string. -/
theorem c8_decode_total_witness :
    safeJSONParse none = .undefined ∧ safeJSONParse (some "%") = .str "%" :=
  ⟨c8_decode_total.1, c8_decode_total.2.1 "%" (by rfl)⟩

/-- Claim C3 (counterexample): decoding the token "hello%20world"
percent-decodes to "hello world", whose JSON parse fails, and the result
is the original token "hello%20world" — not the percent-decoded text
"hello world" the claim promises. -/
theorem c3_counterexample :
    decodeURIComponent "hello%20world" = some "hello world" ∧
    parseJson "hello world" = none ∧
    safeJSONParse (some "hello%20world") = .str "hello%20world" ∧
    ("hello%20world" : String) ≠ "hello world" := by
  refine ⟨by rfl, by rfl, by rfl, by decide⟩

/-- Claim C3 (amended): decode(t) percent-decodes t and then attempts a
JSON parse of the percent-decoded text; when either step fails, the
result is exactly the original token t, unchanged and not
percent-decoded; when both succeed the result is the parsed value. -/
theorem c3_amended (t : String) :
    (decodeURIComponent t = none → safeJSONParse (some t) = .str t) ∧
    (∀ d, decodeURIComponent t = some d → parseJson d = none →
      safeJSONParse (some t) = .str t) ∧
    (∀ d v, decodeURIComponent t = some d → parseJson d = some v →
      safeJSONParse (some t) = v) := by
  refine ⟨fun h => ?_, fun d hd hp => ?_, fun d v hd hp => ?_⟩
  · simp [safeJSONParse, h]
  · simp [safeJSONParse, hd, hp]
  · simp [safeJSONParse, hd, hp]

/-- Witness for c3_amended at the token "hello%20world". -/
theorem c3_amended_witness :
    safeJSONParse (some "hello%20world") = .str "hello%20world" :=
  (c3_amended "hello%20world").2.1 "hello world" (by rfl) (by rfl)

/-! ## Record lemmas for claim C4 -/

theorem recLookup_recSet {α : Type} (r : List (String × α)) (k' k : String)
    (v : α) :
    recLookup (recSet r k' v) k = if k' = k then some v else recLookup r k := by
  induction r with
  | nil => simp [recSet, recLookup]
  | cons p rest ih =>
    obtain ⟨pk, pv⟩ := p
    by_cases h : pk = k'
    · subst h
      simp only [recSet, if_true, recLookup]
      by_cases h2 : pk = k <;> simp [h2]
    · simp only [recSet, if_neg h, recLookup]
      by_cases h2 : pk = k
      · have hk : ¬ k' = k := fun hh => h (h2.trans hh.symm)
        simp [h2, hk]
      · simp [h2, ih]

theorem mem_recSet {α : Type} (r : List (String × α)) (k : String) (v : α)
    (p : String × α) (hp : p ∈ recSet r k v) : p ∈ r ∨ p = (k, v) := by
  induction r with
  | nil => simp [recSet] at hp; simp [hp]
  | cons q rest ih =>
    obtain ⟨qk, qv⟩ := q
    by_cases h : qk = k <;> simp [recSet, h] at hp
    · rcases hp with h1 | h1
      · exact Or.inr (by simp [h1])
      · exact Or.inl (by simp [h1])
    · rcases hp with h1 | h1
      · exact Or.inl (by simp [h1])
      · rcases ih h1 with h2 | h2
        · exact Or.inl (by simp [h2])
        · exact Or.inr h2

theorem keys_recSet_mem {α : Type} (r : List (String × α)) (k' k : String)
    (v : α) :
    k ∈ (recSet r k' v).map Prod.fst ↔ k = k' ∨ k ∈ r.map Prod.fst := by
  induction r with
  | nil => simp [recSet, eq_comm]
  | cons q rest ih =>
    obtain ⟨qk, qv⟩ := q
    by_cases h : qk = k'
    · subst h
      simp [recSet]
      try tauto
    · simp [recSet, h, ih]
      try tauto

theorem foldSet_entries_det {α : Type} (f : String → α) (names : List String) :
    ∀ (acc : List (String × α)), (∀ p ∈ acc, p.2 = f p.1) →
    ∀ p ∈ names.foldl (fun a n => recSet a n (f n)) acc, p.2 = f p.1 := by
  induction names with
  | nil => intro acc hacc p hp; exact hacc p hp
  | cons n ns ih =>
    intro acc hacc p hp
    refine ih (recSet acc n (f n)) ?_ p hp
    intro q hq
    rcases mem_recSet acc n (f n) q hq with h | h
    · exact hacc q h
    · simp [h]

theorem keys_foldSet_mem {α : Type} (f : String → α) (names : List String) :
    ∀ (acc : List (String × α)) (k : String),
    k ∈ (names.foldl (fun a n => recSet a n (f n)) acc).map Prod.fst ↔
      k ∈ names ∨ k ∈ acc.map Prod.fst := by
  induction names with
  | nil => intro acc k; simp
  | cons n ns ih =>
    intro acc k
    rw [List.foldl_cons, ih, keys_recSet_mem]
    simp
    try tauto

theorem recLookup_foldSet {α : Type} (f : String → α) (names : List String) :
    ∀ (acc : List (String × α)) (k : String),
    recLookup (names.foldl (fun a n => recSet a n (f n)) acc) k =
      if k ∈ names then some (f k) else recLookup acc k := by
  induction names with
  | nil => intro acc k; simp
  | cons n ns ih =>
    intro acc k
    rw [List.foldl_cons, ih, recLookup_recSet]
    by_cases h1 : k ∈ ns
    · simp [h1]
    · by_cases h2 : n = k
      · subst h2
        simp [h1]
      · have h3 : ¬ k = n := fun hh => h2 hh.symm
        simp [h1, h2, h3]

theorem recLookup_recSpread_det {α : Type} (f : String → α) :
    ∀ (b a : List (String × α)), (∀ p ∈ b, p.2 = f p.1) → ∀ k,
    recLookup (recSpread a b) k =
      if k ∈ b.map Prod.fst then some (f k) else recLookup a k := by
  intro b
  induction b with
  | nil => intro a _ k; simp [recSpread]
  | cons p bs ih =>
    intro a hb k
    obtain ⟨pk, pv⟩ := p
    have hpv : pv = f pk := hb (pk, pv) (by simp)
    have hrest : ∀ q ∈ bs, q.2 = f q.1 := fun q hq => hb q (by simp [hq])
    have : recSpread a ((pk, pv) :: bs) = recSpread (recSet a pk pv) bs := by
      simp [recSpread]
    rw [this, ih (recSet a pk pv) hrest k, recLookup_recSet]
    by_cases h1 : k ∈ bs.map Prod.fst
    · simp [h1]
    · by_cases h2 : pk = k
      · subst h2
        simp [h1, hpv]
      · have h3 : ¬ k = pk := fun hh => h2 hh.symm
        simp [h1, h2, h3]

/-! ## Claim C4 — the decoded route-param mapping -/

/-- Claim C4 (counterexample): on the pattern "/[[...foo]]" with an
empty raw query, the result binds the absent optional catch-all name foo
to the one-element array holding undefined instead of omitting it, and
also contains the mangled key ".foo]", which is no segment's parameter
name: the catch-all segment filter also matches the optional catch-all
segment, whose name it extracts with the wrong offsets. -/
theorem c4_counterexample :
    getDynamicRouteParams "/[[...foo]]" [] =
      [("foo", .arr [.undefined]), (".foo]", .arr [.undefined])] ∧
    (".foo]" : String) ≠ "foo" ∧
    dynamicParamNames "/[[...foo]]" = [] ∧
    allCatchAllNames "/[[...foo]]" = ["foo", ".foo]"] :=
  ⟨rfl, by decide, rfl, rfl⟩

/-- Claim C4 (amended): the keys of the returned mapping are exactly the
scalar dynamic names together with the combined catch-all name list —
which, for each optional catch-all segment, holds both its name and a
mangled variant stripped with the plain catch-all offsets; every
catch-all name is bound to its catchAllValue, in particular a catch-all
name absent from the raw mapping is bound to the one-element sequence
holding undefined rather than omitted; and scalar names not shadowed by
a catch-all name are bound to their decoded raw value, catch-all entries
overriding scalar entries on collision. -/
theorem c4_amended (path : String) (query : List (String × StrOrList)) :
    (∀ k, (recLookup (getDynamicRouteParams path query) k).isSome ↔
      k ∈ dynamicParamNames path ∨ k ∈ allCatchAllNames path) ∧
    (∀ k, k ∈ allCatchAllNames path →
      recLookup (getDynamicRouteParams path query) k =
        some (catchAllValue query k)) ∧
    (∀ k, k ∈ allCatchAllNames path → recLookup query k = none →
      recLookup (getDynamicRouteParams path query) k =
        some (.arr [.undefined])) ∧
    (∀ k, k ∉ allCatchAllNames path → k ∈ dynamicParamNames path →
      recLookup (getDynamicRouteParams path query) k =
        some (parseOrMapParse (recLookup query k))) := by
  have hmain : ∀ k, recLookup (getDynamicRouteParams path query) k =
      if k ∈ allCatchAllNames path then some (catchAllValue query k)
      else if k ∈ dynamicParamNames path then
        some (parseOrMapParse (recLookup query k))
      else none := by
    intro k
    unfold getDynamicRouteParams
    rw [recLookup_recSpread_det (catchAllValue query) _ _
      (foldSet_entries_det (catchAllValue query) _ [] (by simp)) k]
    rw [recLookup_foldSet]
    simp only [keys_foldSet_mem]
    simp [recLookup]
  refine ⟨fun k => ?_, fun k hk => ?_, fun k hk habs => ?_, fun k hk1 hk2 => ?_⟩
  · rw [hmain k]
    by_cases h1 : k ∈ allCatchAllNames path <;>
      by_cases h2 : k ∈ dynamicParamNames path <;> simp [h1, h2]
  · rw [hmain k]
    simp [hk]
  · rw [hmain k]
    simp only [hk, if_true]
    have : catchAllValue query k = .arr [.undefined] := by
      simp [catchAllValue, habs, parseOrMapParse, safeJSONParse]
    rw [this]
  · rw [hmain k]
    simp [hk1, hk2]

/-- Witness for c4_amended on the pattern "/[...ids]" with an empty raw
query: ids is a catch-all name, and it is bound to the sequence holding
undefined. -/
theorem c4_amended_witness :
    recLookup (getDynamicRouteParams "/[...ids]" []) "ids" =
      some (.arr [.undefined]) :=
  (c4_amended "/[...ids]" []).2.2.1 "ids" (by decide) rfl

/-! ## Percent-codec round trip -/

theorem char_toNat_lt (c : Char) : c.toNat < 0x110000 := by
  rcases c.valid with h | ⟨h1, h2⟩
  · show c.val.toNat < 1114112
    omega
  · exact h2

theorem char_toNat_not_surrogate (c : Char) :
    c.toNat < 0xD800 ∨ 0xDFFF < c.toNat := by
  rcases c.valid with h | ⟨h1, h2⟩
  · exact Or.inl h
  · exact Or.inr h1

theorem hexVal_hexDigitChar (n : Nat) (h : n < 16) :
    hexVal (hexDigitChar n) = some n := by
  interval_cases n <;> rfl

theorem unreservedChar_ne_percent (c : Char) (h : unreservedChar c = true) :
    c ≠ '%' := by
  intro hc
  subst hc
  exact absurd h (by decide)


theorem hex2_hexDigits (b : Nat) (hb : b < 256) :
    hex2 (hexDigitChar (b / 16)) (hexDigitChar (b % 16)) = some b := by
  have h1 := hexVal_hexDigitChar (b / 16) (by omega)
  have h2 := hexVal_hexDigitChar (b % 16) (by omega)
  simp [hex2, h1, h2]
  omega

theorem decodeEscape_b1 (b : Nat) (hb : b < 0x80) (rest : List Char) :
    decodeEscape (hexDigitChar (b / 16) :: hexDigitChar (b % 16) :: rest) =
      some (Char.ofNat b, rest) := by
  simp [decodeEscape, hex2_hexDigits b (by omega), hb]

theorem decodeEscape_b2 (b1 b2 : Nat) (h1 : 0xC2 ≤ b1) (h1' : b1 < 0xE0)
    (h2 : 0x80 ≤ b2) (h2' : b2 < 0xC0) (rest : List Char) :
    decodeEscape (hexDigitChar (b1 / 16) :: hexDigitChar (b1 % 16) :: '%' ::
        hexDigitChar (b2 / 16) :: hexDigitChar (b2 % 16) :: rest) =
      some (Char.ofNat ((b1 - 0xC0) * 64 + (b2 - 0x80)), rest) := by
  have c1 : ¬ b1 < 0x80 := by omega
  have c2 : ¬ b1 < 0xC2 := by omega
  have c4 : contByte b2 = true := by
    simp [contByte]
    omega
  simp [decodeEscape, hex2_hexDigits b1 (by omega), hex2_hexDigits b2 (by omega),
    c1, c2, h1', c4]

theorem decodeEscape_b3 (b1 b2 b3 : Nat) (h1 : 0xE0 ≤ b1) (h1' : b1 < 0xF0)
    (h2 : 0x80 ≤ b2) (h2' : b2 < 0xC0) (h3 : 0x80 ≤ b3) (h3' : b3 < 0xC0)
    (hu : 0x800 ≤ (b1 - 0xE0) * 4096 + (b2 - 0x80) * 64 + (b3 - 0x80) ∧
      ¬ (0xD800 ≤ (b1 - 0xE0) * 4096 + (b2 - 0x80) * 64 + (b3 - 0x80) ∧
        (b1 - 0xE0) * 4096 + (b2 - 0x80) * 64 + (b3 - 0x80) < 0xE000))
    (rest : List Char) :
    decodeEscape (hexDigitChar (b1 / 16) :: hexDigitChar (b1 % 16) :: '%' ::
        hexDigitChar (b2 / 16) :: hexDigitChar (b2 % 16) :: '%' ::
        hexDigitChar (b3 / 16) :: hexDigitChar (b3 % 16) :: rest) =
      some (Char.ofNat ((b1 - 0xE0) * 4096 + (b2 - 0x80) * 64 + (b3 - 0x80)),
        rest) := by
  have c1 : ¬ b1 < 0x80 := by omega
  have c2 : ¬ b1 < 0xC2 := by omega
  have c3 : ¬ b1 < 0xE0 := by omega
  have c4 : contByte b2 = true := by
    simp [contByte]
    omega
  have c5 : contByte b3 = true := by
    simp [contByte]
    omega
  simp [decodeEscape, hex2_hexDigits b1 (by omega), hex2_hexDigits b2 (by omega),
    hex2_hexDigits b3 (by omega), c1, c2, c3, h1', c4, c5, hu.1, hu.2]

theorem decodeEscape_b4 (b1 b2 b3 b4 : Nat) (h1 : 0xF0 ≤ b1) (h1' : b1 < 0xF8)
    (h2 : 0x80 ≤ b2) (h2' : b2 < 0xC0) (h3 : 0x80 ≤ b3) (h3' : b3 < 0xC0)
    (h4 : 0x80 ≤ b4) (h4' : b4 < 0xC0)
    (hu : 0x10000 ≤ (b1 - 0xF0) * 0x40000 + (b2 - 0x80) * 4096 +
        (b3 - 0x80) * 64 + (b4 - 0x80) ∧
      (b1 - 0xF0) * 0x40000 + (b2 - 0x80) * 4096 + (b3 - 0x80) * 64 +
        (b4 - 0x80) < 0x110000)
    (rest : List Char) :
    decodeEscape (hexDigitChar (b1 / 16) :: hexDigitChar (b1 % 16) :: '%' ::
        hexDigitChar (b2 / 16) :: hexDigitChar (b2 % 16) :: '%' ::
        hexDigitChar (b3 / 16) :: hexDigitChar (b3 % 16) :: '%' ::
        hexDigitChar (b4 / 16) :: hexDigitChar (b4 % 16) :: rest) =
      some (Char.ofNat ((b1 - 0xF0) * 0x40000 + (b2 - 0x80) * 4096 +
        (b3 - 0x80) * 64 + (b4 - 0x80)), rest) := by
  have c1 : ¬ b1 < 0x80 := by omega
  have c2 : ¬ b1 < 0xC2 := by omega
  have c3 : ¬ b1 < 0xE0 := by omega
  have c3' : ¬ b1 < 0xF0 := by omega
  have c4 : contByte b2 = true := by
    simp [contByte]
    omega
  have c5 : contByte b3 = true := by
    simp [contByte]
    omega
  have c6 : contByte b4 = true := by
    simp [contByte]
    omega
  simp [decodeEscape, hex2_hexDigits b1 (by omega), hex2_hexDigits b2 (by omega),
    hex2_hexDigits b3 (by omega), hex2_hexDigits b4 (by omega),
    c1, c2, c3, c3', h1', c4, c5, c6, hu.1, hu.2]

theorem decodePercentF_cons_ne (c : Char) (rest : List Char) (fuel : Nat)
    (hc : c ≠ '%') :
    decodePercentF (fuel + 1) (c :: rest) =
      (decodePercentF fuel rest).map (fun t => c :: t) := by
  simp [decodePercentF, hc]

theorem decodePercentF_cons_pct (rest : List Char) (fuel : Nat) (d : Char)
    (rest2 : List Char) (h : decodeEscape rest = some (d, rest2)) :
    decodePercentF (fuel + 1) ('%' :: rest) =
      (decodePercentF fuel rest2).map (fun t => d :: t) := by
  simp [decodePercentF, h]

theorem encChar_ascii (c : Char) (hur : unreservedChar c = false)
    (h : c.toNat < 0x80) :
    encChar c = ['%', hexDigitChar (c.toNat / 16), hexDigitChar (c.toNat % 16)] := by
  simp [encChar, hur, utf8Bytes, h, escByte]

theorem encChar_two (c : Char) (hur : unreservedChar c = false)
    (h : 0x80 ≤ c.toNat) (h' : c.toNat < 0x800) :
    encChar c = ['%', hexDigitChar ((0xC0 + c.toNat / 64) / 16),
      hexDigitChar ((0xC0 + c.toNat / 64) % 16), '%',
      hexDigitChar ((0x80 + c.toNat % 64) / 16),
      hexDigitChar ((0x80 + c.toNat % 64) % 16)] := by
  have hn : ¬ c.toNat < 0x80 := by omega
  simp [encChar, hur, utf8Bytes, hn, h', escByte]

theorem encChar_three (c : Char) (hur : unreservedChar c = false)
    (h : 0x800 ≤ c.toNat) (h' : c.toNat < 0x10000) :
    encChar c = ['%', hexDigitChar ((0xE0 + c.toNat / 4096) / 16),
      hexDigitChar ((0xE0 + c.toNat / 4096) % 16), '%',
      hexDigitChar ((0x80 + c.toNat / 64 % 64) / 16),
      hexDigitChar ((0x80 + c.toNat / 64 % 64) % 16), '%',
      hexDigitChar ((0x80 + c.toNat % 64) / 16),
      hexDigitChar ((0x80 + c.toNat % 64) % 16)] := by
  have hn : ¬ c.toNat < 0x80 := by omega
  have hn2 : ¬ c.toNat < 0x800 := by omega
  simp [encChar, hur, utf8Bytes, hn, hn2, h', escByte]

theorem encChar_four (c : Char) (hur : unreservedChar c = false)
    (h : 0x10000 ≤ c.toNat) :
    encChar c = ['%', hexDigitChar ((0xF0 + c.toNat / 0x40000) / 16),
      hexDigitChar ((0xF0 + c.toNat / 0x40000) % 16), '%',
      hexDigitChar ((0x80 + c.toNat / 4096 % 64) / 16),
      hexDigitChar ((0x80 + c.toNat / 4096 % 64) % 16), '%',
      hexDigitChar ((0x80 + c.toNat / 64 % 64) / 16),
      hexDigitChar ((0x80 + c.toNat / 64 % 64) % 16), '%',
      hexDigitChar ((0x80 + c.toNat % 64) / 16),
      hexDigitChar ((0x80 + c.toNat % 64) % 16)] := by
  have hn : ¬ c.toNat < 0x80 := by omega
  have hn2 : ¬ c.toNat < 0x800 := by omega
  have hn3 : ¬ c.toNat < 0x10000 := by omega
  simp [encChar, hur, utf8Bytes, hn, hn2, hn3, escByte]

theorem decodePercentF_enc :
    ∀ (cs : List Char) (fuel : Nat),
    (encodeURIComponentChars cs).length ≤ fuel →
    decodePercentF fuel (encodeURIComponentChars cs) = some cs := by
  intro cs
  induction cs with
  | nil =>
    intro fuel h
    cases fuel <;> rfl
  | cons c rest ih =>
    intro fuel hf
    rw [show encodeURIComponentChars (c :: rest) =
      encChar c ++ encodeURIComponentChars rest from rfl] at hf ⊢
    by_cases hur : unreservedChar c
    · have hcp : c ≠ '%' := unreservedChar_ne_percent c hur
      rw [show encChar c = [c] from by simp [encChar, hur]] at hf ⊢
      simp only [List.cons_append, List.nil_append, List.length_cons] at hf ⊢
      obtain ⟨f, rfl⟩ : ∃ f, fuel = f + 1 := ⟨fuel - 1, by omega⟩
      rw [decodePercentF_cons_ne c _ f hcp, ih f (by omega)]
      rfl
    · have hur' : unreservedChar c = false := by
        simp [hur]
      have hvalid := char_toNat_lt c
      have hsur := char_toNat_not_surrogate c
      rcases Nat.lt_or_ge c.toNat 0x80 with h1 | h1
      · rw [encChar_ascii c hur' h1] at hf ⊢
        simp only [List.cons_append, List.nil_append, List.length_cons] at hf ⊢
        obtain ⟨f, rfl⟩ : ∃ f, fuel = f + 1 := ⟨fuel - 1, by omega⟩
        rw [decodePercentF_cons_pct _ f (Char.ofNat c.toNat) _
          (decodeEscape_b1 c.toNat h1 _), ih f (by omega)]
        simp [Char.ofNat_toNat]
      · rcases Nat.lt_or_ge c.toNat 0x800 with h2 | h2
        · rw [encChar_two c hur' h1 h2] at hf ⊢
          simp only [List.cons_append, List.nil_append, List.length_cons] at hf ⊢
          obtain ⟨f, rfl⟩ : ∃ f, fuel = f + 1 := ⟨fuel - 1, by omega⟩
          have hdec := decodeEscape_b2 (0xC0 + c.toNat / 64)
            (0x80 + c.toNat % 64) (by omega) (by omega) (by omega) (by omega)
            (encodeURIComponentChars rest)
          have hval : (0xC0 + c.toNat / 64 - 0xC0) * 64 +
              (0x80 + c.toNat % 64 - 0x80) = c.toNat := by omega
          rw [hval] at hdec
          rw [decodePercentF_cons_pct _ f (Char.ofNat c.toNat) _ hdec,
            ih f (by omega)]
          simp [Char.ofNat_toNat]
        · rcases Nat.lt_or_ge c.toNat 0x10000 with h3 | h3
          · rw [encChar_three c hur' h2 h3] at hf ⊢
            simp only [List.cons_append, List.nil_append, List.length_cons] at hf ⊢
            obtain ⟨f, rfl⟩ : ∃ f, fuel = f + 1 := ⟨fuel - 1, by omega⟩
            have hdec := decodeEscape_b3 (0xE0 + c.toNat / 4096)
              (0x80 + c.toNat / 64 % 64) (0x80 + c.toNat % 64)
              (by omega) (by omega) (by omega) (by omega) (by omega) (by omega)
              (by omega) (encodeURIComponentChars rest)
            have hval : (0xE0 + c.toNat / 4096 - 0xE0) * 4096 +
                (0x80 + c.toNat / 64 % 64 - 0x80) * 64 +
                (0x80 + c.toNat % 64 - 0x80) = c.toNat := by omega
            rw [hval] at hdec
            rw [decodePercentF_cons_pct _ f (Char.ofNat c.toNat) _ hdec,
              ih f (by omega)]
            simp [Char.ofNat_toNat]
          · rw [encChar_four c hur' h3] at hf ⊢
            simp only [List.cons_append, List.nil_append, List.length_cons] at hf ⊢
            obtain ⟨f, rfl⟩ : ∃ f, fuel = f + 1 := ⟨fuel - 1, by omega⟩
            have hdec := decodeEscape_b4 (0xF0 + c.toNat / 0x40000)
              (0x80 + c.toNat / 4096 % 64) (0x80 + c.toNat / 64 % 64)
              (0x80 + c.toNat % 64) (by omega) (by omega) (by omega) (by omega)
              (by omega) (by omega) (by omega) (by omega) (by omega)
              (encodeURIComponentChars rest)
            have hval : (0xF0 + c.toNat / 0x40000 - 0xF0) * 0x40000 +
                (0x80 + c.toNat / 4096 % 64 - 0x80) * 4096 +
                (0x80 + c.toNat / 64 % 64 - 0x80) * 64 +
                (0x80 + c.toNat % 64 - 0x80) = c.toNat := by omega
            rw [hval] at hdec
            rw [decodePercentF_cons_pct _ f (Char.ofNat c.toNat) _ hdec,
              ih f (by omega)]
            simp [Char.ofNat_toNat]

theorem data_stringMk (l : List Char) : (String.mk l).data = l := rfl

theorem decodeURIComponent_encodeURIComponent (s : String) :
    decodeURIComponent (encodeURIComponent s) = some s := by
  unfold decodeURIComponent encodeURIComponent decodePercent
  rw [data_stringMk, decodePercentF_enc s.data _ le_rfl]
  simp [stringMk_data]

theorem decodePercentF_no_pct :
    ∀ (cs : List Char) (fuel : Nat), cs.length ≤ fuel →
    (∀ c ∈ cs, c ≠ '%') → decodePercentF fuel cs = some cs := by
  intro cs
  induction cs with
  | nil =>
    intro fuel _ _
    cases fuel <;> rfl
  | cons c rest ih =>
    intro fuel hf hc
    obtain ⟨f, rfl⟩ : ∃ f, fuel = f + 1 := ⟨fuel - 1, by simp at hf; omega⟩
    rw [decodePercentF_cons_ne c rest f (hc c (by simp)),
      ih f (by simp at hf; omega) (fun d hd => hc d (by simp [hd]))]
    rfl

theorem decodePercent_no_pct (cs : List Char) (hc : ∀ c ∈ cs, c ≠ '%') :
    decodePercent cs = some cs :=
  decodePercentF_no_pct cs cs.length le_rfl hc

theorem encChar_length_pos (c : Char) : 1 ≤ (encChar c).length := by
  unfold encChar
  by_cases hur : unreservedChar c <;> simp [hur]
  unfold utf8Bytes
  by_cases h1 : c.toNat < 0x80 <;> simp [h1, escByte]
  by_cases h2 : c.toNat < 0x800 <;> simp [h2, escByte]
  by_cases h3 : c.toNat < 0x10000 <;> simp [h3, escByte]

theorem encChar_length_escaped (c : Char) (hur : unreservedChar c = false) :
    3 ≤ (encChar c).length := by
  unfold encChar
  simp [hur]
  unfold utf8Bytes
  by_cases h1 : c.toNat < 0x80 <;> simp [h1, escByte]
  by_cases h2 : c.toNat < 0x800 <;> simp [h2, escByte]
  by_cases h3 : c.toNat < 0x10000 <;> simp [h3, escByte]

theorem enc_length_ge (cs : List Char) :
    cs.length ≤ (encodeURIComponentChars cs).length := by
  induction cs with
  | nil => simp [encodeURIComponentChars]
  | cons c rest ih =>
    have := encChar_length_pos c
    simp only [encodeURIComponentChars, List.length_append, List.length_cons]
    omega

theorem enc_eq_self_unreserved :
    ∀ (cs : List Char), encodeURIComponentChars cs = cs →
    ∀ c ∈ cs, unreservedChar c = true := by
  intro cs
  induction cs with
  | nil => intro _ c hc; simp at hc
  | cons c rest ih =>
    intro heq d hd
    by_cases hur : unreservedChar c
    · have htail : encodeURIComponentChars rest = rest := by
        have : encodeURIComponentChars (c :: rest) = c :: encodeURIComponentChars rest := by
          simp [encodeURIComponentChars, encChar, hur]
        rw [this] at heq
        exact (List.cons.injEq _ _ _ _ ▸ heq).2
      rcases hd with _ | hd
      · exact hur
      · exact ih htail d (by assumption)
    · exfalso
      have h3 : 3 ≤ (encChar c).length :=
        encChar_length_escaped c (by simp [hur])
      have hlen := congrArg List.length heq
      have hge := enc_length_ge rest
      simp only [encodeURIComponentChars, List.length_append,
        List.length_cons] at hlen
      omega

/-! ## Decimal digit lemmas -/

theorem char_ne_of_toNat_ne (c d : Char) (h : c.toNat ≠ d.toNat) : c ≠ d :=
  fun hc => h (congrArg Char.toNat hc)

theorem digitChar_toNat (d : Nat) (h : d < 10) :
    (digitChar d).toNat = 48 + d := by
  interval_cases d <;> decide

theorem isDigitChar_digitChar (d : Nat) (h : d < 10) :
    isDigitChar (digitChar d) = true := by
  simp [isDigitChar, digitChar_toNat d h]
  omega

theorem digitVal_digitChar (d : Nat) (h : d < 10) :
    digitVal (digitChar d) = d := by
  simp [digitVal, digitChar_toNat d h]

theorem natDigitsRev_digits :
    ∀ (fuel n : Nat), ∀ c ∈ natDigitsRev fuel n,
    ∃ d, d < 10 ∧ c = digitChar d := by
  intro fuel
  induction fuel with
  | zero => intro n c hc; simp [natDigitsRev] at hc
  | succ f ih =>
    intro n c hc
    by_cases hn : n = 0
    · simp [natDigitsRev, hn] at hc
    · simp only [natDigitsRev, if_neg hn, List.mem_cons] at hc
      rcases hc with hc | hc
      · exact ⟨n % 10, by omega, hc⟩
      · exact ih (n / 10) c hc

theorem natDigitsRev_val :
    ∀ (fuel n : Nat), n ≤ fuel →
    digitsVal (natDigitsRev fuel n).reverse = n := by
  intro fuel
  induction fuel with
  | zero =>
    intro n h
    interval_cases n
    rfl
  | succ f ih =>
    intro n h
    by_cases hn : n = 0
    · simp [natDigitsRev, hn, digitsVal]
    · have hdiv : n / 10 ≤ f := by omega
      simp only [natDigitsRev, if_neg hn, List.reverse_cons]
      unfold digitsVal
      rw [List.foldl_append]
      have := ih (n / 10) hdiv
      unfold digitsVal at this
      rw [this]
      simp [digitVal_digitChar (n % 10) (by omega)]
      omega

theorem natDigitsRev_last :
    ∀ (fuel n : Nat), 0 < n → n ≤ fuel →
    ∃ d, 0 < d ∧ d < 10 ∧
      (natDigitsRev fuel n).getLast? = some (digitChar d) := by
  intro fuel
  induction fuel with
  | zero => intro n h1 h2; omega
  | succ f ih =>
    intro n h1 h2
    have hn : n ≠ 0 := by omega
    by_cases hq : n / 10 = 0
    · have hlt : n < 10 := by omega
      have : natDigitsRev f (n / 10) = [] := by
        cases f <;> simp [natDigitsRev, hq]
      simp only [natDigitsRev, if_neg hn, this]
      exact ⟨n % 10, by omega, by omega, rfl⟩
    · obtain ⟨d, hd1, hd2, hd3⟩ := ih (n / 10) (by omega) (by omega)
      refine ⟨d, hd1, hd2, ?_⟩
      simp only [natDigitsRev, if_neg hn]
      cases hL : natDigitsRev f (n / 10) with
      | nil =>
        rw [hL] at hd3
        simp at hd3
      | cons a l =>
        rw [hL] at hd3
        rw [List.getLast?_cons_cons, hd3]

theorem natToChars_digits (n : Nat) :
    ∀ c ∈ natToChars n, ∃ d, d < 10 ∧ c = digitChar d := by
  intro c hc
  unfold natToChars at hc
  by_cases hn : n = 0
  · simp [hn] at hc
    refine ⟨0, by omega, ?_⟩
    rw [hc]
    decide
  · simp only [if_neg hn, List.mem_reverse] at hc
    exact natDigitsRev_digits n n c hc

theorem natToChars_val (n : Nat) : digitsVal (natToChars n) = n := by
  unfold natToChars
  by_cases hn : n = 0
  · simp [hn, digitsVal, digitVal]
  · simp only [if_neg hn]
    exact natDigitsRev_val n n le_rfl

theorem natToChars_ne_nil (n : Nat) : natToChars n ≠ [] := by
  unfold natToChars
  by_cases hn : n = 0
  · simp [hn]
  · simp only [if_neg hn, ne_eq, List.reverse_eq_nil_iff]
    cases hfn : n with
    | zero => omega
    | succ m =>
      simp [natDigitsRev, hn]

theorem natToChars_head_pos (n : Nat) (h : 0 < n) :
    ∃ d cs, 0 < d ∧ d < 10 ∧ natToChars n = digitChar d :: cs := by
  obtain ⟨d, hd1, hd2, hd3⟩ := natDigitsRev_last n n h le_rfl
  unfold natToChars
  rw [if_neg (by omega)]
  have hh : (natDigitsRev n n).reverse.head? = some (digitChar d) := by
    rw [List.head?_reverse]
    exact hd3
  cases hrev : (natDigitsRev n n).reverse with
  | nil => rw [hrev] at hh; simp at hh
  | cons a l =>
    rw [hrev] at hh
    simp only [List.head?_cons, Option.some.injEq] at hh
    exact ⟨d, l, hd1, hd2, by rw [hh]⟩

theorem takeDigits_append (ds rest : List Char)
    (hds : ∀ c ∈ ds, isDigitChar c = true)
    (hrest : ∀ c, rest.head? = some c → isDigitChar c = false) :
    takeDigits (ds ++ rest) = (ds, rest) := by
  induction ds with
  | nil =>
    cases rest with
    | nil => rfl
    | cons c r =>
      have := hrest c rfl
      simp [takeDigits, this]
  | cons d ds' ih =>
    have hd := hds d (by simp)
    have ih' := ih (fun c hc => hds c (by simp [hc]))
    simp [takeDigits, hd, ih']

theorem digitsVal_foldl_acc :
    ∀ (b : List Char) (acc : Nat),
    b.foldl (fun a c => 10 * a + digitVal c) acc =
      acc * 10 ^ b.length + b.foldl (fun a c => 10 * a + digitVal c) 0 := by
  intro b
  induction b with
  | nil => intro acc; simp
  | cons c bs ih =>
    intro acc
    simp only [List.foldl_cons, List.length_cons]
    rw [ih (10 * acc + digitVal c), ih (10 * 0 + digitVal c)]
    ring

theorem digitsVal_append (a b : List Char) :
    digitsVal (a ++ b) = digitsVal a * 10 ^ b.length + digitsVal b := by
  unfold digitsVal
  rw [List.foldl_append]
  exact digitsVal_foldl_acc b _

theorem digitsVal_replicate_zero (k : Nat) :
    digitsVal (List.replicate k '0') = 0 := by
  induction k with
  | zero => rfl
  | succ m ih =>
    rw [List.replicate_succ]
    unfold digitsVal at ih ⊢
    simp only [List.foldl_cons]
    have : digitVal '0' = 0 := by decide
    rw [this]
    simpa using ih

theorem digitsVal_pad (k : Nat) (ds : List Char) :
    digitsVal (List.replicate k '0' ++ ds) = digitsVal ds := by
  rw [digitsVal_append, digitsVal_replicate_zero]
  simp

/-! ## JSON number round trip -/

theorem parseIntDigits_natToChars (n : Nat) (rest : List Char)
    (hrest : ∀ c, rest.head? = some c → isDigitChar c = false) :
    parseIntDigits (natToChars n ++ rest) = some (natToChars n, rest) := by
  by_cases hn : n = 0
  · subst hn
    rw [show natToChars 0 = ['0'] from rfl]
    simp [parseIntDigits]
  · obtain ⟨d, cs, hd0, hd10, heq⟩ := natToChars_head_pos n (by omega)
    rw [heq]
    have hne0 : digitChar d ≠ '0' := by
      apply char_ne_of_toNat_ne
      rw [digitChar_toNat d hd10]
      have : ('0' : Char).toNat = 48 := by decide
      omega
    have htake : takeDigits ((digitChar d :: cs) ++ rest) =
        (digitChar d :: cs, rest) := by
      apply takeDigits_append
      · intro c hc
        obtain ⟨d2, hd2, hc2⟩ := natToChars_digits n c (heq ▸ hc)
        rw [hc2]
        exact isDigitChar_digitChar d2 hd2
      · exact hrest
    simp only [List.cons_append, parseIntDigits, if_neg hne0]
    rw [show (digitChar d :: (cs ++ rest)) = (digitChar d :: cs) ++ rest from rfl,
      htake]

theorem parseFrac_skip (cs : List Char)
    (h : ∀ c, cs.head? = some c → c ≠ '.') :
    parseFrac cs = some ([], cs) := by
  cases cs with
  | nil => rfl
  | cons c r => simp [parseFrac, h c rfl]

theorem parseFrac_digits (ds rest : List Char) (hne : ds ≠ [])
    (hds : ∀ c ∈ ds, isDigitChar c = true)
    (hrest : ∀ c, rest.head? = some c → isDigitChar c = false) :
    parseFrac ('.' :: (ds ++ rest)) = some (ds, rest) := by
  have htake := takeDigits_append ds rest hds hrest
  simp only [parseFrac, if_pos rfl, htake]
  cases ds with
  | nil => exact absurd rfl hne
  | cons d ds' => rfl

theorem parseExpOpt_skip (cs : List Char)
    (h : ∀ c, cs.head? = some c → c ≠ 'e' ∧ c ≠ 'E') :
    parseExpOpt cs = some (0, cs) := by
  cases cs with
  | nil => rfl
  | cons c r =>
    have := h c rfl
    simp [parseExpOpt, this.1, this.2]

theorem canonNum_eq (m : Int) (e : Nat) (h : e = 0 ∨ m % 10 ≠ 0) :
    canonNum m e = (m, e) := by
  cases e with
  | zero => rfl
  | succ e' =>
    rcases h with h | h
    · omega
    · have hm : m ≠ 0 := by
        intro h0
        rw [h0] at h
        simp at h
      simp [canonNum, hm, h]

theorem applyExp_zero (m : Int) (e : Nat) (h : e = 0 ∨ m % 10 ≠ 0) :
    applyExp m e 0 = (m, e) := by
  unfold applyExp
  rw [if_pos (by omega)]
  simp only [Int.toNat_zero, pow_zero, mul_one]
  exact canonNum_eq m e h

theorem decChars_digits (n e : Nat) :
    ∀ c ∈ decChars n e, isDigitChar c = true ∨ c = '.' := by
  intro c hc
  unfold decChars at hc
  have hdig : ∀ c ∈ natToChars n, isDigitChar c = true := by
    intro c2 hc2
    obtain ⟨d, hd, hcd⟩ := natToChars_digits n c2 hc2
    rw [hcd]
    exact isDigitChar_digitChar d hd
  have hpad : ∀ c2 ∈ List.replicate (e + 1 - (natToChars n).length) '0' ++
      natToChars n, isDigitChar c2 = true := by
    intro c2 hc2
    rw [List.mem_append] at hc2
    rcases hc2 with hc2 | hc2
    · rw [List.eq_of_mem_replicate hc2]
      decide
    · exact hdig c2 hc2
  by_cases he : e = 0
  · simp only [he, if_pos rfl] at hc
    exact Or.inl (hdig c hc)
  · simp only [if_neg he, List.mem_append, List.mem_cons] at hc
    rcases hc with hc | hc | hc
    · exact Or.inl (hpad c (List.mem_of_mem_take hc))
    · exact Or.inr hc
    · exact Or.inl (hpad c (List.mem_of_mem_drop hc))

theorem digitChar_zero : digitChar 0 = '0' := by decide

theorem decChars_head (n e : Nat) :
    ∃ d cs, d < 10 ∧ decChars n e = digitChar d :: cs := by
  unfold decChars
  by_cases he : e = 0
  · simp only [he, if_pos rfl]
    by_cases hn : n = 0
    · exact ⟨0, [], by omega, by rw [digitChar_zero, hn]; rfl⟩
    · obtain ⟨d, cs, _, hd10, heq⟩ := natToChars_head_pos n (by omega)
      exact ⟨d, cs, hd10, heq⟩
  · simp only [if_neg he]
    by_cases hdl : (natToChars n).length ≤ e
    · have hk : 1 ≤ e + 1 - (natToChars n).length := by omega
      obtain ⟨k', hk'⟩ : ∃ k', e + 1 - (natToChars n).length = k' + 1 :=
        ⟨e - (natToChars n).length, by omega⟩
      rw [hk', List.replicate_succ, List.cons_append]
      have hL : ('0' :: (List.replicate k' '0' ++ natToChars n)).length - e = 1 := by
        simp only [List.length_cons, List.length_append, List.length_replicate]
        omega
      rw [hL]
      exact ⟨0, _, by omega, by rw [digitChar_zero]; rfl⟩
    · have hn : n ≠ 0 := by
        intro h0
        rw [h0] at hdl
        simp [natToChars] at hdl
        omega
      obtain ⟨d, cs, _, hd10, heq⟩ := natToChars_head_pos n (by omega)
      have hk : e + 1 - (natToChars n).length = 0 := by omega
      rw [hk, List.replicate_zero, List.nil_append, heq]
      have : (digitChar d :: cs).length - e = ((digitChar d :: cs).length - e - 1) + 1 := by
        rw [← heq]
        omega
      rw [this, List.take_succ_cons]
      exact ⟨d, _, hd10, rfl⟩

theorem parseIntDigits_digits (ds rest : List Char) (hne : ds ≠ [])
    (hds : ∀ c ∈ ds, isDigitChar c = true)
    (hhead : ds.head? = some '0' → ds = ['0'])
    (hrest : ∀ c, rest.head? = some c → isDigitChar c = false) :
    parseIntDigits (ds ++ rest) = some (ds, rest) := by
  cases ds with
  | nil => exact absurd rfl hne
  | cons c cs =>
    by_cases hc : c = '0'
    · have := hhead (by rw [hc]; rfl)
      have hcs : cs = [] := by
        injection this with h1 h2
      subst hcs hc
      simp [parseIntDigits]
    · have htake := takeDigits_append (c :: cs) rest hds hrest
      simp only [List.cons_append, parseIntDigits, if_neg hc]
      rw [show (c :: (cs ++ rest)) = (c :: cs) ++ rest from rfl, htake]

theorem parseUnsigned_pointed (ip fp rest : List Char) (hip_ne : ip ≠ [])
    (hip_digits : ∀ c ∈ ip, isDigitChar c = true)
    (hip_head : ip.head? = some '0' → ip = ['0'])
    (hfp_ne : fp ≠ []) (hfp_digits : ∀ c ∈ fp, isDigitChar c = true)
    (hrest : ∀ c, rest.head? = some c →
      isDigitChar c = false ∧ c ≠ '.' ∧ c ≠ 'e' ∧ c ≠ 'E') :
    parseUnsigned (ip ++ ('.' :: (fp ++ rest))) =
      some (applyExp (digitsVal (ip ++ fp) : Int) fp.length 0, rest) := by
  have h1 : parseIntDigits (ip ++ ('.' :: (fp ++ rest))) =
      some (ip, '.' :: (fp ++ rest)) := by
    apply parseIntDigits_digits ip _ hip_ne hip_digits hip_head
    intro c hc
    simp only [List.head?_cons, Option.some.injEq] at hc
    rw [← hc]
    decide
  have h2 : parseFrac ('.' :: (fp ++ rest)) = some (fp, rest) :=
    parseFrac_digits fp rest hfp_ne hfp_digits (fun c hc => (hrest c hc).1)
  have h3 : parseExpOpt rest = some (0, rest) :=
    parseExpOpt_skip rest
      (fun c hc => ⟨(hrest c hc).2.2.1, (hrest c hc).2.2.2⟩)
  simp only [parseUnsigned, h1, h2, h3]

theorem parseUnsigned_decChars (n e : Nat) (hcanon : e = 0 ∨ n % 10 ≠ 0)
    (rest : List Char)
    (hrest : ∀ c, rest.head? = some c →
      isDigitChar c = false ∧ c ≠ '.' ∧ c ≠ 'e' ∧ c ≠ 'E') :
    parseUnsigned (decChars n e ++ rest) = some (((n : Int), e), rest) := by
  by_cases he : e = 0
  · subst he
    rw [show decChars n 0 = natToChars n from by unfold decChars; simp]
    have h1 := parseIntDigits_natToChars n rest (fun c hc => (hrest c hc).1)
    have h2 : parseFrac rest = some ([], rest) :=
      parseFrac_skip rest (fun c hc => (hrest c hc).2.1)
    have h3 : parseExpOpt rest = some (0, rest) :=
      parseExpOpt_skip rest
        (fun c hc => ⟨(hrest c hc).2.2.1, (hrest c hc).2.2.2⟩)
    simp only [parseUnsigned, h1, h2, h3, List.append_nil, List.length_nil]
    rw [natToChars_val, applyExp_zero _ _ (Or.inl rfl)]
  · have hn10 : n % 10 ≠ 0 := hcanon.resolve_left he
    have hn : n ≠ 0 := fun h0 => hn10 (by rw [h0])
    have hdl : 1 ≤ (natToChars n).length :=
      List.length_pos.mpr (natToChars_ne_nil n)
    have hpad_digits : ∀ c ∈ List.replicate (e + 1 - (natToChars n).length) '0'
        ++ natToChars n, isDigitChar c = true := by
      intro c hc
      rw [List.mem_append] at hc
      rcases hc with hc | hc
      · rw [List.eq_of_mem_replicate hc]
        decide
      · obtain ⟨d, hd, hcd⟩ := natToChars_digits n c hc
        rw [hcd]
        exact isDigitChar_digitChar d hd
    have hLlen : (List.replicate (e + 1 - (natToChars n).length) '0' ++
        natToChars n).length = (e + 1 - (natToChars n).length) +
        (natToChars n).length := by
      simp
    have hsplit : decChars n e ++ rest =
        (List.replicate (e + 1 - (natToChars n).length) '0' ++
          natToChars n).take ((List.replicate (e + 1 - (natToChars n).length)
            '0' ++ natToChars n).length - e) ++
        ('.' :: ((List.replicate (e + 1 - (natToChars n).length) '0' ++
          natToChars n).drop ((List.replicate (e + 1 - (natToChars n).length)
            '0' ++ natToChars n).length - e) ++ rest)) := by
      unfold decChars
      rw [if_neg he]
      simp [List.append_assoc]
    rw [hsplit]
    have htd : (List.replicate (e + 1 - (natToChars n).length) '0' ++
        natToChars n).take ((List.replicate (e + 1 - (natToChars n).length)
          '0' ++ natToChars n).length - e) ++
        (List.replicate (e + 1 - (natToChars n).length) '0' ++
          natToChars n).drop ((List.replicate (e + 1 - (natToChars n).length)
            '0' ++ natToChars n).length - e) =
        List.replicate (e + 1 - (natToChars n).length) '0' ++ natToChars n :=
      List.take_append_drop _ _
    have hip_digits : ∀ c ∈ (List.replicate (e + 1 - (natToChars n).length)
        '0' ++ natToChars n).take ((List.replicate
          (e + 1 - (natToChars n).length) '0' ++ natToChars n).length - e),
        isDigitChar c = true :=
      fun c hc => hpad_digits c (List.mem_of_mem_take hc)
    have hfp_digits : ∀ c ∈ (List.replicate (e + 1 - (natToChars n).length)
        '0' ++ natToChars n).drop ((List.replicate
          (e + 1 - (natToChars n).length) '0' ++ natToChars n).length - e),
        isDigitChar c = true :=
      fun c hc => hpad_digits c (List.mem_of_mem_drop hc)
    have hip_len : ((List.replicate (e + 1 - (natToChars n).length) '0' ++
        natToChars n).take ((List.replicate (e + 1 - (natToChars n).length)
          '0' ++ natToChars n).length - e)).length =
        (List.replicate (e + 1 - (natToChars n).length) '0' ++
          natToChars n).length - e := by
      rw [List.length_take]
      omega
    have hfp_len : ((List.replicate (e + 1 - (natToChars n).length) '0' ++
        natToChars n).drop ((List.replicate (e + 1 - (natToChars n).length)
          '0' ++ natToChars n).length - e)).length = e := by
      rw [List.length_drop]
      omega
    have hip_ne : (List.replicate (e + 1 - (natToChars n).length) '0' ++
        natToChars n).take ((List.replicate (e + 1 - (natToChars n).length)
          '0' ++ natToChars n).length - e) ≠ [] := by
      intro hnil
      have := congrArg List.length hnil
      rw [hip_len] at this
      simp at this
      omega
    have hfp_ne : (List.replicate (e + 1 - (natToChars n).length) '0' ++
        natToChars n).drop ((List.replicate (e + 1 - (natToChars n).length)
          '0' ++ natToChars n).length - e) ≠ [] := by
      intro hnil
      have := congrArg List.length hnil
      rw [hfp_len] at this
      simp at this
      omega
    have hip_head : ((List.replicate (e + 1 - (natToChars n).length) '0' ++
        natToChars n).take ((List.replicate (e + 1 - (natToChars n).length)
          '0' ++ natToChars n).length - e)).head? = some '0' →
        (List.replicate (e + 1 - (natToChars n).length) '0' ++
          natToChars n).take ((List.replicate (e + 1 - (natToChars n).length)
            '0' ++ natToChars n).length - e) = ['0'] := by
      by_cases hdle : (natToChars n).length ≤ e
      · intro _
        obtain ⟨k', hk'⟩ : ∃ k', e + 1 - (natToChars n).length = k' + 1 :=
          ⟨e - (natToChars n).length, by omega⟩
        rw [hk', List.replicate_succ, List.cons_append]
        have hL1 : ('0' :: (List.replicate k' '0' ++ natToChars n)).length - e
            = 1 := by
          simp only [List.length_cons, List.length_append,
            List.length_replicate]
          omega
        rw [hL1]
        rfl
      · intro habs
        exfalso
        have hk0 : e + 1 - (natToChars n).length = 0 := by omega
        rw [hk0, List.replicate_zero, List.nil_append] at habs
        obtain ⟨d, cs, hd0, hd10, heq⟩ := natToChars_head_pos n (by omega)
        rw [heq] at habs
        obtain ⟨t, ht⟩ : ∃ t, (digitChar d :: cs).length - e = t + 1 := by
          refine ⟨(digitChar d :: cs).length - e - 1, ?_⟩
          have : 1 ≤ (digitChar d :: cs).length - e := by
            rw [← heq]
            omega
          omega
        rw [ht, List.take_succ_cons] at habs
        simp only [List.head?_cons, Option.some.injEq] at habs
        have := digitChar_toNat d hd10
        have h0 : ('0' : Char).toNat = 48 := by decide
        have := congrArg Char.toNat habs
        omega
    rw [parseUnsigned_pointed _ _ rest hip_ne hip_digits hip_head hfp_ne
      hfp_digits hrest, List.take_append_drop, digitsVal_pad, natToChars_val,
      hfp_len, applyExp_zero _ _ (Or.inr (by omega))]

theorem parseNumber_numToChars (m : Int) (e : Nat)
    (hcanon : e = 0 ∨ m % 10 ≠ 0) (rest : List Char)
    (hrest : ∀ c, rest.head? = some c →
      isDigitChar c = false ∧ c ≠ '.' ∧ c ≠ 'e' ∧ c ≠ 'E') :
    parseNumber (numToChars m e ++ rest) = some ((m, e), rest) := by
  have hcanon' : e = 0 ∨ m.natAbs % 10 ≠ 0 := by
    rcases hcanon with h | h
    · exact Or.inl h
    · exact Or.inr (by omega)
  have hU := parseUnsigned_decChars m.natAbs e hcanon' rest hrest
  unfold numToChars
  by_cases hm : m < 0
  · rw [if_pos hm]
    rw [List.append_assoc, List.singleton_append]
    rw [show parseNumber ('-' :: (decChars m.natAbs e ++ rest)) =
      (parseUnsigned (decChars m.natAbs e ++ rest)).map
        (fun p => ((-p.1.1, p.1.2), p.2)) from rfl]
    rw [hU]
    simp only [Option.map_some']
    have : -(m.natAbs : Int) = m := by omega
    rw [this]
  · rw [if_neg hm, List.nil_append]
    obtain ⟨d, cs, hd10, heq⟩ := decChars_head m.natAbs e
    have hdm : digitChar d ≠ '-' := by
      apply char_ne_of_toNat_ne
      rw [digitChar_toNat d hd10]
      have : ('-' : Char).toNat = 45 := by decide
      omega
    rw [heq, List.cons_append]
    rw [show parseNumber (digitChar d :: (cs ++ rest)) =
      parseUnsigned (digitChar d :: (cs ++ rest)) from by
        rw [parseNumber.eq_def]
        simp [hdm]]
    rw [show digitChar d :: (cs ++ rest) = (digitChar d :: cs) ++ rest from
      rfl, ← heq, hU]
    have : (m.natAbs : Int) = m := by omega
    rw [this]

/-! ## JSON string literal round trip -/

theorem hexVal_hexDigitCharLower (n : Nat) (h : n < 16) :
    hexVal (hexDigitCharLower n) = some n := by
  interval_cases n <;> rfl

theorem psb_close (r : List Char) : parseStringBody ('"' :: r) = some ([], r) := by
  conv_lhs => rw [parseStringBody.eq_def]
  simp

theorem psb_esc (e : Char) (ec : Char) (he : escChar e = some ec)
    (hu : e ≠ 'u') (r : List Char) :
    parseStringBody ('\\' :: e :: r) =
      (parseStringBody r).map (fun p => (ec :: p.1, p.2)) := by
  conv_lhs => rw [parseStringBody.eq_def]
  simp only [if_neg (show ('\\' : Char) ≠ '"' from by decide), if_pos rfl,
    if_neg hu, he]
  simp

theorem psb_u_ctrl (t : Nat) (ht : t < 32) (r : List Char) :
    parseStringBody ('\\' :: 'u' :: '0' :: '0' ::
        hexDigitCharLower (t / 16) :: hexDigitCharLower (t % 16) :: r) =
      (parseStringBody r).map (fun p => (Char.ofNat t :: p.1, p.2)) := by
  conv_lhs => rw [parseStringBody.eq_def]
  have h0 : hexVal '0' = some 0 := by decide
  have h1 : hexVal (hexDigitCharLower (t / 16)) = some (t / 16) :=
    hexVal_hexDigitCharLower _ (by omega)
  have h2 : hexVal (hexDigitCharLower (t % 16)) = some (t % 16) :=
    hexVal_hexDigitCharLower _ (by omega)
  simp only [if_neg (show ('\\' : Char) ≠ '"' from by decide), if_pos rfl,
    h0, h1, h2]
  have hu : 4096 * 0 + 256 * 0 + 16 * (t / 16) + t % 16 = t := by omega
  rw [hu]
  have hcond : t < 0xD800 ∨ 0xDFFF < t := Or.inl (by omega)
  simp [hcond]

theorem psb_plain (c : Char) (h1 : c ≠ '"') (h2 : c ≠ '\\')
    (h3 : ¬ c.toNat < 32) (r : List Char) :
    parseStringBody (c :: r) =
      (parseStringBody r).map (fun p => (c :: p.1, p.2)) := by
  conv_lhs => rw [parseStringBody.eq_def]
  simp only [if_neg h1, if_neg h2, if_neg h3]

theorem parseStringBody_quote :
    ∀ (l rest : List Char),
    parseStringBody (quoteChars l ++ '"' :: rest) = some (l, rest) := by
  intro l
  induction l with
  | nil =>
    intro rest
    simp only [quoteChars, List.nil_append]
    exact psb_close rest
  | cons c cs ih =>
    intro rest
    simp only [quoteChars, List.append_assoc]
    by_cases e1 : c = '"'
    · subst e1
      rw [show quoteChar '"' = ['\\', '"'] from rfl]
      rw [show (['\\', '"'] : List Char) ++ (quoteChars cs ++ '"' :: rest) =
        '\\' :: '"' :: (quoteChars cs ++ '"' :: rest) from rfl]
      rw [psb_esc '"' '"' (by decide) (by decide), ih rest]
      rfl
    · by_cases e2 : c = '\\'
      · subst e2
        rw [show quoteChar '\\' = ['\\', '\\'] from by rfl]
        rw [show (['\\', '\\'] : List Char) ++ (quoteChars cs ++ '"' :: rest) =
          '\\' :: '\\' :: (quoteChars cs ++ '"' :: rest) from rfl]
        rw [psb_esc '\\' '\\' (by decide) (by decide), ih rest]
        rfl
      · by_cases e3 : c = Char.ofNat 8
        · subst e3
          rw [show quoteChar (Char.ofNat 8) = ['\\', 'b'] from by rfl]
          rw [show (['\\', 'b'] : List Char) ++ (quoteChars cs ++ '"' :: rest) =
            '\\' :: 'b' :: (quoteChars cs ++ '"' :: rest) from rfl]
          rw [psb_esc 'b' (Char.ofNat 8) (by decide) (by decide), ih rest]
          rfl
        · by_cases e4 : c = Char.ofNat 12
          · subst e4
            rw [show quoteChar (Char.ofNat 12) = ['\\', 'f'] from by rfl]
            rw [show (['\\', 'f'] : List Char) ++ (quoteChars cs ++ '"' :: rest)
              = '\\' :: 'f' :: (quoteChars cs ++ '"' :: rest) from rfl]
            rw [psb_esc 'f' (Char.ofNat 12) (by decide) (by decide), ih rest]
            rfl
          · by_cases e5 : c = Char.ofNat 10
            · subst e5
              rw [show quoteChar (Char.ofNat 10) = ['\\', 'n'] from by rfl]
              rw [show (['\\', 'n'] : List Char) ++
                (quoteChars cs ++ '"' :: rest) =
                '\\' :: 'n' :: (quoteChars cs ++ '"' :: rest) from rfl]
              rw [psb_esc 'n' (Char.ofNat 10) (by decide) (by decide), ih rest]
              rfl
            · by_cases e6 : c = Char.ofNat 13
              · subst e6
                rw [show quoteChar (Char.ofNat 13) = ['\\', 'r'] from by rfl]
                rw [show (['\\', 'r'] : List Char) ++
                  (quoteChars cs ++ '"' :: rest) =
                  '\\' :: 'r' :: (quoteChars cs ++ '"' :: rest) from rfl]
                rw [psb_esc 'r' (Char.ofNat 13) (by decide) (by decide),
                  ih rest]
                rfl
              · by_cases e7 : c = Char.ofNat 9
                · subst e7
                  rw [show quoteChar (Char.ofNat 9) = ['\\', 't'] from by rfl]
                  rw [show (['\\', 't'] : List Char) ++
                    (quoteChars cs ++ '"' :: rest) =
                    '\\' :: 't' :: (quoteChars cs ++ '"' :: rest) from rfl]
                  rw [psb_esc 't' (Char.ofNat 9) (by decide) (by decide),
                    ih rest]
                  rfl
                · by_cases e8 : c.toNat < 32
                  · rw [show quoteChar c = ['\\', 'u', '0', '0',
                      hexDigitCharLower (c.toNat / 16),
                      hexDigitCharLower (c.toNat % 16)] from by
                        unfold quoteChar
                        simp [e1, e2, e3, e4, e5, e6, e7, e8]]
                    rw [show (['\\', 'u', '0', '0',
                      hexDigitCharLower (c.toNat / 16),
                      hexDigitCharLower (c.toNat % 16)] : List Char) ++
                      (quoteChars cs ++ '"' :: rest) =
                      '\\' :: 'u' :: '0' :: '0' ::
                      hexDigitCharLower (c.toNat / 16) ::
                      hexDigitCharLower (c.toNat % 16) ::
                      (quoteChars cs ++ '"' :: rest) from rfl]
                    rw [psb_u_ctrl c.toNat e8, ih rest]
                    simp [Char.ofNat_toNat]
                  · rw [show quoteChar c = [c] from by
                      unfold quoteChar
                      simp [e1, e2, e3, e4, e5, e6, e7, e8]]
                    rw [show ([c] : List Char) ++
                      (quoteChars cs ++ '"' :: rest) =
                      c :: (quoteChars cs ++ '"' :: rest) from rfl]
                    rw [psb_plain c e1 e2 e8, ih rest]
                    rfl

/-! ## Serializer shape lemmas -/

theorem digit_head_facts (d : Nat) (hd : d < 10) :
    jsWs (digitChar d) = false ∧ digitChar d ≠ ']' ∧ digitChar d ≠ '}' := by
  interval_cases d <;> refine ⟨by decide, by decide, by decide⟩

theorem numToChars_shape (m : Int) (e : Nat) :
    ∃ c cs, numToChars m e = c :: cs ∧ jsWs c = false ∧ c ≠ ']' ∧
      c ≠ '}' := by
  unfold numToChars
  by_cases hm : m < 0
  · rw [if_pos hm]
    exact ⟨'-', _, rfl, by decide, by decide, by decide⟩
  · rw [if_neg hm, List.nil_append]
    obtain ⟨d, cs, hd10, heq⟩ := decChars_head m.natAbs e
    obtain ⟨h1, h2, h3⟩ := digit_head_facts d hd10
    exact ⟨digitChar d, cs, heq, h1, h2, h3⟩

theorem serVal_head (v : JSV) (sv : List Char) (hc : canonV v = true)
    (hs : serVal v = some sv) :
    ∃ c cs, sv = c :: cs ∧ jsWs c = false ∧ c ≠ ']' ∧ c ≠ '}' := by
  cases v with
  | str s =>
    rw [show serVal (.str s) = some (quoteString s) from rfl] at hs
    injection hs with hs
    exact ⟨'"', _, by rw [← hs]; rfl, by decide, by decide, by decide⟩
  | num m e =>
    rw [show serVal (.num m e) = some (numToChars m e) from rfl] at hs
    injection hs with hs
    obtain ⟨c, cs, heq, h1, h2, h3⟩ := numToChars_shape m e
    exact ⟨c, cs, by rw [← hs, heq], h1, h2, h3⟩
  | bool b =>
    cases b <;> injection hs with hs <;>
      exact ⟨_, _, hs.symm, by decide, by decide, by decide⟩
  | null =>
    injection hs with hs
    exact ⟨'n', _, hs.symm, by decide, by decide, by decide⟩
  | arr xs =>
    injection hs with hs
    exact ⟨'[', _, hs.symm, by decide, by decide, by decide⟩
  | obj fs =>
    injection hs with hs
    exact ⟨'{', _, hs.symm, by decide, by decide, by decide⟩
  | undefined => simp [canonV] at hc
  | other => simp [canonV] at hc

theorem canonV_serVal_isSome (v : JSV) (hc : canonV v = true) :
    ∃ sv, serVal v = some sv := by
  cases v with
  | str s => exact ⟨_, rfl⟩
  | num m e => exact ⟨_, rfl⟩
  | bool b => exact ⟨_, rfl⟩
  | null => exact ⟨_, rfl⟩
  | arr xs => exact ⟨_, rfl⟩
  | obj fs => exact ⟨_, rfl⟩
  | undefined => simp [canonV] at hc
  | other => simp [canonV] at hc

theorem serElems_single (x : JSV) :
    serElems [x] = (serVal x).getD "null".data := by
  rw [serElems.eq_def]
  simp

theorem serElems_cons_cons (x y : JSV) (ys : List JSV) :
    serElems (x :: y :: ys) =
      (serVal x).getD "null".data ++ ',' :: serElems (y :: ys) := by
  rw [serElems.eq_def]

theorem serFields_cons (k : String) (v : JSV) (fs : List (String × JSV))
    (sv : List Char) (hsv : serVal v = some sv) :
    serFields ((k, v) :: fs) = quoteString k ++ ':' :: sv ++
      (match serFields fs with
        | [] => []
        | _ :: _ => ',' :: serFields fs) := by
  rw [serFields.eq_def]
  simp only [hsv]

theorem needEs_cons (x : JSV) (xs : List JSV) :
    needEs (x :: xs) = 1 + max (needV x) (needEs xs) := by
  rw [needEs.eq_def]

theorem needMs_cons (k : String) (v : JSV) (fs : List (String × JSV)) :
    needMs ((k, v) :: fs) = 1 + max (needV v) (needMs fs) := by
  rw [needMs.eq_def]

mutual

theorem needV_le : ∀ (v : JSV) (sv : List Char), canonV v = true →
    serVal v = some sv → needV v ≤ sv.length
  | .str s, sv, _, hs => by
    injection hs with hs
    rw [← hs]
    simp [needV, quoteString]
  | .num m e, sv, _, hs => by
    injection hs with hs
    obtain ⟨c, cs, heq, _, _, _⟩ := numToChars_shape m e
    rw [← hs, heq]
    simp [needV]
  | .bool b, sv, _, hs => by
    cases b <;> injection hs with hs <;> rw [← hs] <;> simp [needV]
  | .null, sv, _, hs => by
    injection hs with hs
    rw [← hs]
    simp [needV]
  | .arr xs, sv, hc, hs => by
    injection hs with hs
    rw [← hs]
    have hxs : canonL xs = true := by simpa [canonV] using hc
    have h := needEs_le xs hxs
    have hnv : needV (.arr xs) = 1 + needEs xs := rfl
    rw [hnv]
    simp only [List.length_cons, List.length_append]
    omega
  | .obj fs, sv, hc, hs => by
    injection hs with hs
    rw [← hs]
    have hfs : canonF fs = true := by simpa [canonV] using hc
    have h := needMs_le fs hfs
    have hnv : needV (.obj fs) = 1 + needMs fs := rfl
    rw [hnv]
    simp only [List.length_cons, List.length_append]
    omega

theorem needEs_le : ∀ (xs : List JSV), canonL xs = true →
    needEs xs ≤ (serElems xs).length + 1
  | [], _ => by
    rw [show needEs [] = 0 from by rw [needEs.eq_def]]
    omega
  | [x], hc => by
    have hcx : canonV x = true := by simpa [canonL] using hc
    obtain ⟨sv, hsv⟩ := canonV_serVal_isSome x hcx
    have h1 := needV_le x sv hcx hsv
    rw [needEs_cons, serElems_single, hsv, Option.getD_some,
      show needEs [] = 0 from by rw [needEs.eq_def]]
    omega
  | x :: y :: ys, hc => by
    have hx : canonV x = true ∧ canonL (y :: ys) = true := by
      simpa [canonL] using hc
    obtain ⟨sv, hsv⟩ := canonV_serVal_isSome x hx.1
    have h1 := needV_le x sv hx.1 hsv
    have h2 := needEs_le (y :: ys) hx.2
    rw [needEs_cons, serElems_cons_cons, hsv, Option.getD_some]
    simp only [List.length_append, List.length_cons]
    omega

theorem needMs_le : ∀ (fs : List (String × JSV)), canonF fs = true →
    needMs fs ≤ (serFields fs).length + 1
  | [], _ => by
    rw [show needMs [] = 0 from by rw [needMs.eq_def]]
    omega
  | (k, v) :: fs, hc => by
    have hcv : canonV v = true := by
      simp only [canonF, Bool.and_eq_true] at hc
      exact hc.1.2
    have hcrest : canonF fs = true := by
      simp only [canonF, Bool.and_eq_true] at hc
      exact hc.2
    obtain ⟨sv, hsv⟩ := canonV_serVal_isSome v hcv
    have h1 := needV_le v sv hcv hsv
    have h2 := needMs_le fs hcrest
    rw [needMs_cons, serFields_cons k v fs sv hsv]
    cases hrest : serFields fs with
    | nil =>
      rw [hrest] at h2
      simp only [List.length_append, List.length_cons, List.length_nil,
        quoteString]
      simp at h2
      omega
    | cons a l =>
      rw [hrest] at h2
      simp only [List.length_append, List.length_cons, quoteString]
      simp only [List.length_cons] at h2
      omega

end

/-! ## Parser step lemmas -/

theorem skipWs_not_ws (c : Char) (cs : List Char) (h : jsWs c = false) :
    skipWs (c :: cs) = c :: cs := by
  simp [skipWs, h]

theorem pv_true (f : Nat) (r : List Char) :
    parseVal (f + 1) ('t' :: 'r' :: 'u' :: 'e' :: r) = some (.bool true, r) := by
  rw [parseVal.eq_def]
  simp

theorem pv_false (f : Nat) (r : List Char) :
    parseVal (f + 1) ('f' :: 'a' :: 'l' :: 's' :: 'e' :: r) =
      some (.bool false, r) := by
  rw [parseVal.eq_def]
  simp

theorem pv_null (f : Nat) (r : List Char) :
    parseVal (f + 1) ('n' :: 'u' :: 'l' :: 'l' :: r) = some (.null, r) := by
  rw [parseVal.eq_def]
  simp

theorem pv_quote (f : Nat) (r : List Char) :
    parseVal (f + 1) ('"' :: r) =
      (parseStringBody r).map (fun p => (.str (String.mk p.1), p.2)) := by
  rw [parseVal.eq_def]
  simp

theorem pv_arr_empty (f : Nat) (r r2 : List Char)
    (hsw : skipWs r = ']' :: r2) :
    parseVal (f + 1) ('[' :: r) = some (.arr [], r2) := by
  rw [parseVal.eq_def]
  simp [hsw]

theorem pv_arr_cons (f : Nat) (c0 : Char) (rr : List Char)
    (hws : jsWs c0 = false) (hd : c0 ≠ ']') :
    parseVal (f + 1) ('[' :: (c0 :: rr)) =
      (parseElems f (c0 :: rr)).map (fun p => (.arr p.1, p.2)) := by
  rw [parseVal.eq_def]
  simp only [skipWs_not_ws c0 rr hws]
  simp [hd]

theorem pv_obj_empty (f : Nat) (r r2 : List Char)
    (hsw : skipWs r = '}' :: r2) :
    parseVal (f + 1) ('{' :: r) = some (.obj [], r2) := by
  rw [parseVal.eq_def]
  simp [hsw]

theorem pv_obj_cons (f : Nat) (c0 : Char) (rr : List Char)
    (hws : jsWs c0 = false) (hd : c0 ≠ '}') :
    parseVal (f + 1) ('{' :: (c0 :: rr)) =
      (parseMembers f (c0 :: rr)).map (fun p => (.obj p.1, p.2)) := by
  rw [parseVal.eq_def]
  simp only [skipWs_not_ws c0 rr hws]
  simp [hd]

theorem pv_num (f : Nat) (c : Char) (cs : List Char) (h1 : c ≠ 't')
    (h2 : c ≠ 'f') (h3 : c ≠ 'n') (h4 : c ≠ '"') (h5 : c ≠ '[')
    (h6 : c ≠ '{') :
    parseVal (f + 1) (c :: cs) =
      (parseNumber (c :: cs)).map (fun p => (.num p.1.1 p.1.2, p.2)) := by
  rw [parseVal.eq_def]
  simp [h1, h2, h3, h4, h5, h6]

theorem pe_last (f : Nat) (cs : List Char) (v : JSV) (r2 : List Char)
    (hv : parseVal f cs = some (v, ']' :: r2)) :
    parseElems (f + 1) cs = some ([v], r2) := by
  rw [parseElems.eq_def]
  simp [hv, skipWs_not_ws ']' r2 (by decide)]

theorem pe_cons (f : Nat) (cs : List Char) (v : JSV) (r2 : List Char)
    (vs : List JSV) (r3 : List Char)
    (hv : parseVal f cs = some (v, ',' :: r2))
    (hrec : parseElems f (skipWs r2) = some (vs, r3)) :
    parseElems (f + 1) cs = some (v :: vs, r3) := by
  rw [parseElems.eq_def]
  simp [hv, skipWs_not_ws ',' r2 (by decide), hrec]

theorem pm_one (f : Nat) (r kcs : List Char) (v : JSV) (r2 r4 : List Char)
    (hkey : parseStringBody r = some (kcs, ':' :: r2))
    (hv : parseVal f (skipWs r2) = some (v, '}' :: r4)) :
    parseMembers (f + 1) ('"' :: r) = some ([(String.mk kcs, v)], r4) := by
  rw [parseMembers.eq_def]
  simp [hkey, skipWs_not_ws ':' r2 (by decide), hv,
    skipWs_not_ws '}' r4 (by decide)]

theorem pm_cons (f : Nat) (r kcs : List Char) (v : JSV) (r2 r4 : List Char)
    (fs : List (String × JSV)) (r5 : List Char)
    (hkey : parseStringBody r = some (kcs, ':' :: r2))
    (hv : parseVal f (skipWs r2) = some (v, ',' :: r4))
    (hrec : parseMembers f (skipWs r4) = some (fs, r5)) :
    parseMembers (f + 1) ('"' :: r) =
      some ((String.mk kcs, v) :: fs, r5) := by
  rw [parseMembers.eq_def]
  simp [hkey, skipWs_not_ws ':' r2 (by decide), hv,
    skipWs_not_ws ',' r4 (by decide), hrec]

theorem digitChar_dispatch (d : Nat) (hd : d < 10) :
    digitChar d ≠ 't' ∧ digitChar d ≠ 'f' ∧ digitChar d ≠ 'n' ∧
    digitChar d ≠ '"' ∧ digitChar d ≠ '[' ∧ digitChar d ≠ '{' := by
  interval_cases d <;>
    exact ⟨by decide, by decide, by decide, by decide, by decide, by decide⟩

theorem numToChars_dispatch (m : Int) (e : Nat) :
    ∃ c cs, numToChars m e = c :: cs ∧ c ≠ 't' ∧ c ≠ 'f' ∧ c ≠ 'n' ∧
      c ≠ '"' ∧ c ≠ '[' ∧ c ≠ '{' := by
  unfold numToChars
  by_cases hm : m < 0
  · rw [if_pos hm]
    exact ⟨'-', _, rfl, by decide, by decide, by decide, by decide,
      by decide, by decide⟩
  · rw [if_neg hm, List.nil_append]
    obtain ⟨d, cs, hd10, heq⟩ := decChars_head m.natAbs e
    obtain ⟨h1, h2, h3, h4, h5, h6⟩ := digitChar_dispatch d hd10
    exact ⟨digitChar d, cs, heq, h1, h2, h3, h4, h5, h6⟩

theorem serElems_head (xs : List JSV) (hne : xs ≠ []) (hc : canonL xs = true) :
    ∃ c cs, serElems xs = c :: cs ∧ jsWs c = false ∧ c ≠ ']' := by
  cases xs with
  | nil => exact absurd rfl hne
  | cons x xs' =>
    have hcx : canonV x = true := by
      simp only [canonL, Bool.and_eq_true] at hc
      exact hc.1
    obtain ⟨sv, hsv⟩ := canonV_serVal_isSome x hcx
    obtain ⟨c0, cs0, hshape, hws, hne1, _⟩ := serVal_head x sv hcx hsv
    cases xs' with
    | nil =>
      refine ⟨c0, cs0, ?_, hws, hne1⟩
      rw [serElems_single, hsv, Option.getD_some, hshape]
    | cons y ys =>
      refine ⟨c0, cs0 ++ ',' :: serElems (y :: ys), ?_, hws, hne1⟩
      rw [serElems_cons_cons, hsv, Option.getD_some, hshape]
      rfl

theorem serFields_head (fs : List (String × JSV)) (hne : fs ≠ [])
    (hc : canonF fs = true) :
    ∃ cs, serFields fs = '"' :: cs := by
  cases fs with
  | nil => exact absurd rfl hne
  | cons p fs' =>
    obtain ⟨k, v⟩ := p
    have hcv : canonV v = true := by
      simp only [canonF, Bool.and_eq_true] at hc
      exact hc.1.2
    obtain ⟨sv, hsv⟩ := canonV_serVal_isSome v hcv
    rw [serFields_cons k v fs' sv hsv]
    exact ⟨_, rfl⟩

theorem needV_pos (v : JSV) : 1 ≤ needV v := by
  cases v <;> simp only [needV.eq_def] <;> omega

theorem stop_at (d : Char) (hd : isDigitChar d = false ∧ d ≠ '.' ∧
    d ≠ 'e' ∧ d ≠ 'E') (t : List Char) :
    ∀ c, (d :: t).head? = some c →
      isDigitChar c = false ∧ c ≠ '.' ∧ c ≠ 'e' ∧ c ≠ 'E' := by
  intro c h
  simp only [List.head?_cons, Option.some.injEq] at h
  rw [← h]
  exact hd

theorem parse_serVal_rt : ∀ fuel : Nat,
    (∀ (v : JSV) (sv rest : List Char), canonV v = true →
      serVal v = some sv → needV v ≤ fuel →
      (∀ c, rest.head? = some c →
        isDigitChar c = false ∧ c ≠ '.' ∧ c ≠ 'e' ∧ c ≠ 'E') →
      parseVal fuel (sv ++ rest) = some (v, rest)) ∧
    (∀ (xs : List JSV) (rest : List Char), canonL xs = true → xs ≠ [] →
      needEs xs ≤ fuel →
      parseElems fuel (serElems xs ++ ']' :: rest) = some (xs, rest)) ∧
    (∀ (fs : List (String × JSV)) (rest : List Char), canonF fs = true →
      fs ≠ [] → needMs fs ≤ fuel →
      parseMembers fuel (serFields fs ++ '}' :: rest) = some (fs, rest)) := by
  intro fuel
  induction fuel with
  | zero =>
    refine ⟨fun v sv rest hc hs hn _ => ?_, fun xs rest hc hne hn => ?_,
      fun fs rest hc hne hn => ?_⟩
    · have := needV_pos v
      omega
    · cases xs with
      | nil => exact absurd rfl hne
      | cons x xs' =>
        rw [needEs_cons] at hn
        omega
    · cases fs with
      | nil => exact absurd rfl hne
      | cons p fs' =>
        obtain ⟨k, v⟩ := p
        rw [needMs_cons] at hn
        omega
  | succ f ih =>
    obtain ⟨ihv, ihe, ihm⟩ := ih
    refine ⟨fun v sv rest hc hs hn hrest => ?_, fun xs rest hc hne hn => ?_,
      fun fs rest hc hne hn => ?_⟩
    · cases v with
      | str s =>
        injection hs with hs
        subst hs
        rw [show quoteString s ++ rest =
          '"' :: (quoteChars s.data ++ ('"' :: rest)) from by
            simp [quoteString]]
        rw [pv_quote, parseStringBody_quote s.data rest]
        simp [stringMk_data]
      | num m e =>
        injection hs with hs
        subst hs
        have hcn : e = 0 ∨ m % 10 ≠ 0 := by
          have := hc
          simp only [canonV, Bool.or_eq_true, beq_iff_eq, bne_iff_ne,
            ne_eq] at this
          tauto
        obtain ⟨c0, cs0, heq, d1, d2, d3, d4, d5, d6⟩ :=
          numToChars_dispatch m e
        rw [heq, List.cons_append, pv_num f c0 _ d1 d2 d3 d4 d5 d6,
          ← List.cons_append, ← heq,
          parseNumber_numToChars m e hcn rest hrest]
        rfl
      | bool b =>
        cases b <;> injection hs with hs <;> subst hs
        · exact pv_false f rest
        · exact pv_true f rest
      | null =>
        injection hs with hs
        subst hs
        exact pv_null f rest
      | arr xs =>
        injection hs with hs
        subst hs
        cases xs with
        | nil =>
          rw [show ('[' :: serElems [] ++ [']']) ++ rest =
            '[' :: (']' :: rest) from by
              rw [show serElems [] = [] from by rw [serElems.eq_def]]
              rfl]
          exact pv_arr_empty f (']' :: rest) rest
            (skipWs_not_ws ']' rest (by decide))
        | cons x xs' =>
          have hcl : canonL (x :: xs') = true := by simpa [canonV] using hc
          obtain ⟨c0, cs0, hE, hws, hne1⟩ :=
            serElems_head (x :: xs') (by simp) hcl
          have hfuel : needEs (x :: xs') ≤ f := by
            have h1 : needV (.arr (x :: xs')) = 1 + needEs (x :: xs') := rfl
            omega
          rw [show ('[' :: serElems (x :: xs') ++ [']']) ++ rest =
            '[' :: (serElems (x :: xs') ++ ']' :: rest) from by simp]
          rw [hE, List.cons_append, pv_arr_cons f c0 _ hws hne1,
            ← List.cons_append, ← hE,
            ihe (x :: xs') rest hcl (by simp) hfuel]
          rfl
      | obj fs =>
        injection hs with hs
        subst hs
        cases fs with
        | nil =>
          rw [show ('{' :: serFields [] ++ ['}']) ++ rest =
            '{' :: ('}' :: rest) from by
              rw [show serFields [] = [] from by rw [serFields.eq_def]]
              rfl]
          exact pv_obj_empty f ('}' :: rest) rest
            (skipWs_not_ws '}' rest (by decide))
        | cons p fs' =>
          have hcl : canonF (p :: fs') = true := by simpa [canonV] using hc
          obtain ⟨cs0, hE⟩ := serFields_head (p :: fs') (by simp) hcl
          have hfuel : needMs (p :: fs') ≤ f := by
            have h1 : needV (.obj (p :: fs')) = 1 + needMs (p :: fs') := rfl
            omega
          rw [show ('{' :: serFields (p :: fs') ++ ['}']) ++ rest =
            '{' :: (serFields (p :: fs') ++ '}' :: rest) from by simp]
          rw [hE, List.cons_append,
            pv_obj_cons f '"' _ (by decide) (by decide),
            ← List.cons_append, ← hE,
            ihm (p :: fs') rest hcl (by simp) hfuel]
          rfl
      | undefined => simp [canonV] at hc
      | other => simp [canonV] at hc
    · cases xs with
      | nil => exact absurd rfl hne
      | cons x xs' =>
        have hcx : canonV x = true ∧ canonL xs' = true := by
          simpa [canonL, Bool.and_eq_true] using hc
        obtain ⟨sv, hsv⟩ := canonV_serVal_isSome x hcx.1
        have hfx : needV x ≤ f := by
          rw [needEs_cons] at hn
          omega
        cases xs' with
        | nil =>
          rw [serElems_single, hsv, Option.getD_some]
          exact pe_last f _ x rest
            (ihv x sv (']' :: rest) hcx.1 hsv hfx
              (stop_at ']' ⟨by decide, by decide, by decide, by decide⟩ rest))
        | cons y ys =>
          rw [serElems_cons_cons, hsv, Option.getD_some]
          rw [show (sv ++ ',' :: serElems (y :: ys)) ++ ']' :: rest =
            sv ++ (',' :: (serElems (y :: ys) ++ ']' :: rest)) from by simp]
          have hv := ihv x sv (',' :: (serElems (y :: ys) ++ ']' :: rest))
            hcx.1 hsv hfx
            (stop_at ',' ⟨by decide, by decide, by decide, by decide⟩ _)
          have hfr : needEs (y :: ys) ≤ f := by
            rw [needEs_cons] at hn
            omega
          obtain ⟨c1, cs1, hE1, hws1, _⟩ :=
            serElems_head (y :: ys) (by simp) hcx.2
          have hrec : parseElems f
              (skipWs (serElems (y :: ys) ++ ']' :: rest)) =
              some (y :: ys, rest) := by
            rw [hE1, List.cons_append, skipWs_not_ws c1 _ hws1,
              ← List.cons_append, ← hE1]
            exact ihe (y :: ys) rest hcx.2 (by simp) hfr
          exact pe_cons f _ x _ (y :: ys) rest hv hrec
    · cases fs with
      | nil => exact absurd rfl hne
      | cons p fs' =>
        obtain ⟨k, v⟩ := p
        have hkv : canonV v = true := by
          simp only [canonF, Bool.and_eq_true] at hc
          exact hc.1.2
        have hcr : canonF fs' = true := by
          simp only [canonF, Bool.and_eq_true] at hc
          exact hc.2
        obtain ⟨sv, hsv⟩ := canonV_serVal_isSome v hkv
        have hfv : needV v ≤ f := by
          rw [needMs_cons] at hn
          omega
        obtain ⟨c0, cs0, hshape, hws0, _, _⟩ := serVal_head v sv hkv hsv
        rw [serFields_cons k v fs' sv hsv]
        cases hSF : serFields fs' with
        | nil =>
          have hfs0 : fs' = [] := by
            by_contra h0
            obtain ⟨cs2, hE2⟩ := serFields_head fs' h0 hcr
            rw [hSF] at hE2
            exact absurd hE2 (by simp)
          subst hfs0
          simp only [hSF]
          rw [show (quoteString k ++ ':' :: sv ++ []) ++ '}' :: rest =
            '"' :: (quoteChars k.data ++
              ('"' :: (':' :: (sv ++ '}' :: rest)))) from by
                simp [quoteString]]
          have hv2 : parseVal f (skipWs (sv ++ '}' :: rest)) =
              some (v, '}' :: rest) := by
            rw [hshape, List.cons_append, skipWs_not_ws c0 _ hws0,
              ← List.cons_append, ← hshape]
            exact ihv v sv ('}' :: rest) hkv hsv hfv
              (stop_at '}' ⟨by decide, by decide, by decide, by decide⟩ rest)
          rw [pm_one f _ k.data v _ rest
            (parseStringBody_quote k.data (':' :: (sv ++ '}' :: rest))) hv2]
        | cons a l =>
          have hne' : fs' ≠ [] := by
            intro h0
            rw [h0] at hSF
            rw [show serFields [] = [] from by rw [serFields.eq_def]] at hSF
            exact absurd hSF (by simp)
          have ha : a = '"' := by
            obtain ⟨cs2, hE2⟩ := serFields_head fs' hne' hcr
            rw [hSF] at hE2
            injection hE2 with h1 h2
          subst ha
          simp only [hSF]
          rw [show (quoteString k ++ ':' :: sv ++ ',' :: ('"' :: l)) ++
            '}' :: rest = '"' :: (quoteChars k.data ++ ('"' :: (':' ::
              (sv ++ ',' :: (('"' :: l) ++ '}' :: rest))))) from by
                simp [quoteString]]
          have hv2 : parseVal f
              (skipWs (sv ++ ',' :: (('"' :: l) ++ '}' :: rest))) =
              some (v, ',' :: (('"' :: l) ++ '}' :: rest)) := by
            rw [hshape, List.cons_append, skipWs_not_ws c0 _ hws0,
              ← List.cons_append, ← hshape]
            exact ihv v sv (',' :: (('"' :: l) ++ '}' :: rest)) hkv hsv hfv
              (stop_at ',' ⟨by decide, by decide, by decide, by decide⟩ _)
          have hfr : needMs fs' ≤ f := by
            rw [needMs_cons] at hn
            omega
          have hrec : parseMembers f
              (skipWs (('"' :: l) ++ '}' :: rest)) = some (fs', rest) := by
            rw [List.cons_append, skipWs_not_ws '"' _ (by decide),
              ← List.cons_append, ← hSF]
            exact ihm fs' rest hcr hne' hfr
          rw [pm_cons f _ k.data v _ _ fs' rest
            (parseStringBody_quote k.data
              (':' :: (sv ++ ',' :: (('"' :: l) ++ '}' :: rest)))) hv2 hrec]

/-! ## Claim C1 — the encode/decode round trip -/

theorem parseJson_serVal (v : JSV) (sv : List Char) (hc : canonV v = true)
    (hsv : serVal v = some sv) : parseJson (String.mk sv) = some v := by
  unfold parseJson
  rw [data_stringMk]
  obtain ⟨c0, cs0, hshape, hws0, _, _⟩ := serVal_head v sv hc hsv
  have hsw : skipWs sv = sv := by
    rw [hshape]
    exact skipWs_not_ws c0 cs0 hws0
  rw [hsw]
  have hfuel : needV v ≤ sv.length + 1 := by
    have := needV_le v sv hc hsv
    omega
  have hpv := (parse_serVal_rt (sv.length + 1)).1 v sv [] hc hsv hfuel
    (fun c hcc => by simp at hcc)
  rw [List.append_nil] at hpv
  rw [hpv]
  rfl

theorem encodeValue_nonstr (v : JSV) (hnotstr : ∀ s, v ≠ .str s)
    (hc : canonV v = true) (sv : List Char) (hsv : serVal v = some sv) :
    encodeValue v = .ok (encodeURIComponent (String.mk sv)) := by
  cases v with
  | str s => exact absurd rfl (hnotstr s)
  | num m e =>
    injection hsv with hsv
    rw [show encodeValue (.num m e) =
      .ok (encodeURIComponent (numToString m e)) from rfl, ← hsv]
    rfl
  | bool b =>
    cases b <;> injection hsv with hsv <;> rw [← hsv] <;> rfl
  | null =>
    injection hsv with hsv
    rw [← hsv]
    rfl
  | arr xs =>
    rw [show encodeValue (.arr xs) = .ok (encodeURIComponent
      (String.mk ((serVal (.arr xs)).getD []))) from rfl, hsv]
    rfl
  | obj fs =>
    rw [show encodeValue (.obj fs) = .ok (encodeURIComponent
      (String.mk ((serVal (.obj fs)).getD []))) from rfl, hsv]
    rfl
  | undefined => simp [canonV] at hc
  | other => simp [canonV] at hc

/-- Claim C1 (counterexample): the single-space string — non-empty,
not numeric-looking, none of the reserved literals — encodes to "%20",
which decodes to the string "%20", not to " ": the round trip the claim
states fails on it. -/
theorem c1_counterexample :
    encodeValue (.str " ") = .ok "%20" ∧
    safeJSONParse (some "%20") = .str "%20" ∧
    JSV.str "%20" ≠ JSV.str " " := by
  refine ⟨by rfl, by rfl, ?_⟩
  intro h
  injection h with h
  exact absurd h (by decide)

/-- Claim C1 (amended): decode(encode(v)) is deep-equal to v for every
canonical JSON-compatible number, boolean, null, array and object, and
for every non-empty string that percent-encoding leaves unchanged and
that does not parse as JSON.  Beyond numeric-looking strings and the
literals "true"/"false"/"null", the exception class also contains every
string altered by percent-encoding (the result is then the
percent-encoded token, as " " round-trips to "%20") and every other
string whose text parses as JSON. -/
theorem c1_roundtrip (v : JSV) (hc : canonV v = true)
    (hstr : ∀ s, v = .str s →
      s ≠ "" ∧ encodeURIComponent s = s ∧ parseJson s = none) :
    ∃ t, encodeValue v = .ok t ∧ safeJSONParse (some t) = v := by
  by_cases hvs : ∃ s, v = .str s
  · obtain ⟨s, rfl⟩ := hvs
    obtain ⟨hne, hencid, hparse⟩ := hstr s rfl
    refine ⟨s, ?_, ?_⟩
    · rw [show encodeValue (.str s) = if s = "" then .error .invalidValue
        else .ok (encodeURIComponent s) from rfl, if_neg hne, hencid]
    · have hall : ∀ c ∈ s.data, unreservedChar c = true := by
        apply enc_eq_self_unreserved
        have := congrArg String.data hencid
        rw [show (encodeURIComponent s).data =
          encodeURIComponentChars s.data from rfl] at this
        exact this
      have hnp : ∀ c ∈ s.data, c ≠ '%' :=
        fun c hc2 => unreservedChar_ne_percent c (hall c hc2)
      have hdec : decodeURIComponent s = some s := by
        unfold decodeURIComponent
        rw [decodePercent_no_pct s.data hnp]
        simp [stringMk_data]
      simp [safeJSONParse, hdec, hparse]
  · have hnotstr : ∀ s, v ≠ .str s := fun s h => hvs ⟨s, h⟩
    obtain ⟨sv, hsv⟩ := canonV_serVal_isSome v hc
    refine ⟨encodeURIComponent (String.mk sv),
      encodeValue_nonstr v hnotstr hc sv hsv, ?_⟩
    have hdec := decodeURIComponent_encodeURIComponent (String.mk sv)
    have hpj := parseJson_serVal v sv hc hsv
    simp [safeJSONParse, hdec, hpj]

/-- Witness for c1_roundtrip at the number 42 and at the object
containing a name, a nested array and a string with a space. -/
theorem c1_roundtrip_witness :
    (∃ t, encodeValue (.num 42 0) = .ok t ∧
      safeJSONParse (some t) = .num 42 0) ∧
    (∃ t, encodeValue (.obj [("name", .str "bob"), ("xs", .arr
      [.num 45 1, .bool true, .null, .str "a b"])]) = .ok t ∧
      safeJSONParse (some t) = .obj [("name", .str "bob"), ("xs", .arr
        [.num 45 1, .bool true, .null, .str "a b"])]) ∧
    (∃ t, encodeValue (.str "hello") = .ok t ∧
      safeJSONParse (some t) = .str "hello") := by
  refine ⟨c1_roundtrip (.num 42 0) (by decide) ?_,
    c1_roundtrip _ (by decide) ?_, c1_roundtrip (.str "hello") (by decide) ?_⟩
  · intro s h
    cases h
  · intro s h
    cases h
  · intro s h
    injection h with h
    subst h
    refine ⟨by decide, by rfl, by rfl⟩
